import Mathlib

/-!
Shallow embedding of the query core of an Obsidian-style vault server:
the Bases filter-expression evaluator, the Bases metadata query engine,
the link-graph builder with its query algorithms, and the conversation
classifier.  All definitions are translated from the TypeScript source;
JavaScript strings are modelled as `List Char`, JS numbers as `Rat`,
loosely-typed property values as the tagged union `Value`, and the I/O
boundary (file listing / reading, which may throw) as `Option`-valued
fields of the input records.  Functions whose JS originals can recurse
without a structural bound carry an explicit fuel argument; `none` from
a fuelled evaluator models non-termination / a thrown exception.
-/

namespace ObsidianMCP

/-- Tagged model of a loosely-typed JavaScript value as stored in a
frontmatter / property bag.  JS numbers are modelled as rationals. -/
inductive Value where
  | str (s : String)
  | num (q : Rat)
  | bool (b : Bool)
  | null
  | undefined
  | list (l : List Value)
deriving Repr

mutual

/-- Decidable equality for `Value` (manual because of the nested list). -/
def Value.decEq : (a b : Value) → Decidable (a = b)
  | .str a, .str b =>
    if h : a = b then .isTrue (h ▸ rfl) else .isFalse (fun hc => h (Value.str.inj hc))
  | .num a, .num b =>
    if h : a = b then .isTrue (h ▸ rfl) else .isFalse (fun hc => h (Value.num.inj hc))
  | .bool a, .bool b =>
    if h : a = b then .isTrue (h ▸ rfl) else .isFalse (fun hc => h (Value.bool.inj hc))
  | .null, .null => .isTrue rfl
  | .undefined, .undefined => .isTrue rfl
  | .list a, .list b =>
    match Value.decEqList a b with
    | .isTrue h => .isTrue (h ▸ rfl)
    | .isFalse h => .isFalse (fun hc => h (Value.list.inj hc))
  | .str _, .num _ => .isFalse (fun h => nomatch h)
  | .str _, .bool _ => .isFalse (fun h => nomatch h)
  | .str _, .null => .isFalse (fun h => nomatch h)
  | .str _, .undefined => .isFalse (fun h => nomatch h)
  | .str _, .list _ => .isFalse (fun h => nomatch h)
  | .num _, .str _ => .isFalse (fun h => nomatch h)
  | .num _, .bool _ => .isFalse (fun h => nomatch h)
  | .num _, .null => .isFalse (fun h => nomatch h)
  | .num _, .undefined => .isFalse (fun h => nomatch h)
  | .num _, .list _ => .isFalse (fun h => nomatch h)
  | .bool _, .str _ => .isFalse (fun h => nomatch h)
  | .bool _, .num _ => .isFalse (fun h => nomatch h)
  | .bool _, .null => .isFalse (fun h => nomatch h)
  | .bool _, .undefined => .isFalse (fun h => nomatch h)
  | .bool _, .list _ => .isFalse (fun h => nomatch h)
  | .null, .str _ => .isFalse (fun h => nomatch h)
  | .null, .num _ => .isFalse (fun h => nomatch h)
  | .null, .bool _ => .isFalse (fun h => nomatch h)
  | .null, .undefined => .isFalse (fun h => nomatch h)
  | .null, .list _ => .isFalse (fun h => nomatch h)
  | .undefined, .str _ => .isFalse (fun h => nomatch h)
  | .undefined, .num _ => .isFalse (fun h => nomatch h)
  | .undefined, .bool _ => .isFalse (fun h => nomatch h)
  | .undefined, .null => .isFalse (fun h => nomatch h)
  | .undefined, .list _ => .isFalse (fun h => nomatch h)
  | .list _, .str _ => .isFalse (fun h => nomatch h)
  | .list _, .num _ => .isFalse (fun h => nomatch h)
  | .list _, .bool _ => .isFalse (fun h => nomatch h)
  | .list _, .null => .isFalse (fun h => nomatch h)
  | .list _, .undefined => .isFalse (fun h => nomatch h)

def Value.decEqList : (a b : List Value) → Decidable (a = b)
  | [], [] => .isTrue rfl
  | [], _ :: _ => .isFalse (fun h => nomatch h)
  | _ :: _, [] => .isFalse (fun h => nomatch h)
  | x :: xs, y :: ys =>
    match Value.decEq x y with
    | .isTrue h1 =>
      match Value.decEqList xs ys with
      | .isTrue h2 => .isTrue (by rw [h1, h2])
      | .isFalse h2 => .isFalse (fun hc => h2 (List.cons.inj hc).2
        )
    | .isFalse h1 => .isFalse (fun hc => h1 (List.cons.inj hc).1)

end

instance : DecidableEq Value := Value.decEq

/-- JS native truthiness: `null`, `undefined`, `false`, `0`, and the empty
string are falsy; every object (so every array, even empty) is truthy. -/
def jsTruthy : Value → Bool
  | .str s => s != ""
  | .num q => q != 0
  | .bool b => b
  | .null => false
  | .undefined => false
  | .list _ => true

/-- Association-list lookup (first match), modelling `Map.get` /
JS property lookup on an object with unique keys. -/
def lookupA {α : Type} : List (String × α) → String → Option α
  | [], _ => none
  | (k, v) :: rest, key => if k = key then some v else lookupA rest key

/-- Association-list update, modelling `Map.set` / JS property assignment:
replaces the value of an existing key in place, otherwise appends. -/
def setAssoc {α : Type} : List (String × α) → String → α → List (String × α)
  | [], k, v => [(k, v)]
  | (k', v') :: rest, k, v =>
    if k' = k then (k, v) :: rest else (k', v') :: setAssoc rest k v

/-- Insertion-ordered set add, modelling `Set.add`. -/
def addSet (l : List String) (x : String) : List String :=
  if l.contains x then l else l ++ [x]

/-- Deduplicate keeping the first occurrence, modelling iteration of a
JS `Set` built by repeated `add`. -/
def dedupList (l : List String) : List String :=
  l.foldl addSet []

/-- Whitespace class used by JS `\s`, `String.prototype.trim` (ASCII part). -/
def isWsChar (c : Char) : Bool :=
  c = ' ' || c = '\t' || c = '\n' || c = '\r' || c = '\x0b' || c = '\x0c'

/-- Word character class `\w` = `[A-Za-z0-9_]`. -/
def isWordChar (c : Char) : Bool :=
  ('a' ≤ c && c ≤ 'z') || ('A' ≤ c && c ≤ 'Z') || ('0' ≤ c && c ≤ '9') || c = '_'

def isDigitChar (c : Char) : Bool := '0' ≤ c && c ≤ '9'

/-- ASCII lower-casing of one character (model of `toLowerCase`). -/
def charLower (c : Char) : Char :=
  if 'A' ≤ c && c ≤ 'Z' then Char.ofNat (c.toNat + 32) else c

/-- ASCII upper-casing of one character (model of `toUpperCase`). -/
def charUpper (c : Char) : Char :=
  if 'a' ≤ c && c ≤ 'z' then Char.ofNat (c.toNat - 32) else c

def lowerChars (l : List Char) : List Char := l.map charLower

def upperChars (l : List Char) : List Char := l.map charUpper

/-- Model of `String.prototype.trim` on a character list. -/
def trimChars (l : List Char) : List Char :=
  ((l.dropWhile isWsChar).reverse.dropWhile isWsChar).reverse

/-- Substring test, modelling `String.prototype.includes`. -/
def containsSub (hay pat : List Char) : Bool :=
  match hay with
  | [] => pat.isPrefixOf ([] : List Char)
  | _ :: rest => pat.isPrefixOf hay || containsSub rest pat

/-- Split on a single character keeping empty parts, modelling
`String.prototype.split(char)`. -/
def splitOnCharAux (sep : Char) : List Char → List Char → List (List Char)
  | [], cur => [cur.reverse]
  | c :: rest, cur =>
    if c = sep then cur.reverse :: splitOnCharAux sep rest []
    else splitOnCharAux sep rest (c :: cur)

def splitOnChar (sep : Char) (l : List Char) : List (List Char) :=
  splitOnCharAux sep l []

/-- Model of `s.replace(/\.md$/, '')`: drop a final ".md" if present. -/
def stripMdSuffix (l : List Char) : List Char :=
  if ['d', 'm', '.'].isPrefixOf l.reverse then (l.reverse.drop 3).reverse else l

def lowerStr (s : String) : String := ⟨lowerChars s.data⟩

def trimStr (s : String) : String := ⟨trimChars s.data⟩

/-- Single-quote character, written via its code point. -/
def squote : Char := Char.ofNat 39

def digitChar (n : Nat) : Char := Char.ofNat (48 + n)

def digitsToNat (l : List Char) : Nat :=
  l.foldl (fun a c => a * 10 + (c.toNat - 48)) 0

/-- Fraction digits of `r / d` by long division, cut off at `fuel` digits
(models the bounded precision of JS number printing; all numbers actually
produced by the evaluator have terminating decimal expansions). -/
def fracDigits : Nat → Nat → Nat → List Char
  | 0, _, _ => []
  | fuel + 1, r, d =>
    if r = 0 then []
    else digitChar (r * 10 / d) :: fracDigits fuel (r * 10 % d) d

/-- Model of JS `String(number)` for the rationals our evaluator produces. -/
def numToString (q : Rat) : String :=
  let sign : String := if q < 0 then "-" else ""
  let a := |q|
  let ip : Nat := a.num.toNat / a.den
  let r : Nat := a.num.toNat % a.den
  if r = 0 then sign ++ toString ip
  else sign ++ toString ip ++ "." ++ ⟨fracDigits 30 r a.den⟩

mutual

/-- Model of the JS `String(v)` coercion: arrays render as their elements
joined with commas, with `null`/`undefined` elements rendered empty. -/
def valueToString : Value → String
  | .str s => s
  | .num q => numToString q
  | .bool b => if b then "true" else "false"
  | .null => "null"
  | .undefined => "undefined"
  | .list l => valueToStringList l

def valueToStringList : List Value → String
  | [] => ""
  | [x] =>
    match x with
    | .null => ""
    | .undefined => ""
    | v => valueToString v
  | x :: xs =>
    (match x with
     | .null => ""
     | .undefined => ""
     | v => valueToString v) ++ "," ++ valueToStringList xs

end

/-- Parse the exact numeric-literal shape `^-?\d+(\.\d+)?$`. -/
def parseNumLitU (l : List Char) : Option Rat :=
  let (ds, r) := l.span isDigitChar
  if ds = [] then none
  else
    match r with
    | [] => some (digitsToNat ds : Rat)
    | '.' :: r2 =>
      let (fs, r3) := r2.span isDigitChar
      if fs ≠ [] ∧ r3 = [] then
        some ((digitsToNat ds : Rat) + (digitsToNat fs : Rat) / ((10 : Rat) ^ fs.length))
      else none
    | _ => none

def parseNumLit (l : List Char) : Option Rat :=
  match l with
  | '-' :: rest => (parseNumLitU rest).map Neg.neg
  | _ => parseNumLitU l

/-- Model of the JS `Number(string)` coercion for the decimal forms the
evaluator can meet: trimmed empty string is 0, optionally signed decimal
notations `d+`, `d+.d*`, `.d+` parse, anything else is NaN (`none`). -/
def jsStrToNumber (l : List Char) : Option Rat :=
  let t := trimChars l
  if t = [] then some 0
  else
    let signed : Rat × List Char :=
      match t with
      | '+' :: r => (1, r)
      | '-' :: r => (-1, r)
      | _ => (1, t)
    let (ds, r) := signed.2.span isDigitChar
    match r with
    | [] => if ds = [] then none else some (signed.1 * (digitsToNat ds : Rat))
    | '.' :: r2 =>
      let (fs, r3) := r2.span isDigitChar
      if r3 = [] ∧ (ds ≠ [] ∨ fs ≠ []) then
        some (signed.1 * ((digitsToNat ds : Rat) + (digitsToNat fs : Rat) / ((10 : Rat) ^ fs.length)))
      else none
    | _ => none

/-- Model of the JS `Number(v)` coercion; `none` models NaN. -/
def toNumber : Value → Option Rat
  | .num q => some q
  | .bool b => some (if b then 1 else 0)
  | .null => some 0
  | .undefined => none
  | .str s => jsStrToNumber s.data
  | .list l => jsStrToNumber (valueToString (.list l)).data

/-- Model of JS `===` on property values; distinct arrays are never
reference-equal, so `list` values compare unequal. -/
def strictEq : Value → Value → Bool
  | .str a, .str b => a == b
  | .num a, .num b => a == b
  | .bool a, .bool b => a == b
  | .null, .null => true
  | .undefined, .undefined => true
  | _, _ => false

/-- The evaluator's own truthiness test (`isTruthy` in the source): unlike
native JS truthiness, an empty array is falsy here. -/
def isTruthy : Value → Bool
  | .null => false
  | .undefined => false
  | .bool b => b
  | .num q => q != 0
  | .str s => s.length > 0
  | .list l => l.length > 0

/-! Expression evaluator (`ExpressionEvaluator` and its helpers). -/

/-- Per-document evaluation context (`NoteContext`). -/
structure NoteContext where
  path : String
  name : String
  folder : String
  extension : String
  size : Rat
  ctime : Rat
  mtime : Rat
  tags : List String
  links : List String
  properties : List (String × Value)
deriving DecidableEq, Repr

def isQuotedBy (q : Char) (t : List Char) : Bool :=
  t.head? = some q && t.getLast? = some q

/-- `stripQuotes`: trim, then remove one layer of matching single or
double quotes. -/
def stripQuotes (s : String) : String :=
  let t := trimChars s.data
  if isQuotedBy '"' t || isQuotedBy squote t then ⟨(t.drop 1).dropLast⟩ else ⟨t⟩

/-- `parseArgs` loop: split on commas at parenthesis depth 0 outside string
literals; every part is trimmed; a trailing empty part is dropped. -/
def parseArgsAux : List Char → List (List Char) → List Char → Int → Option Char → List (List Char)
  | [], args, current, _, _ =>
    if trimChars current = [] then args else args ++ [trimChars current]
  | c :: rest, args, current, depth, inString =>
    match inString with
    | some q =>
      parseArgsAux rest args (current ++ [c]) depth (if c = q then none else some q)
    | none =>
      if c = '"' || c = squote then parseArgsAux rest args (current ++ [c]) depth (some c)
      else if c = '(' then parseArgsAux rest args (current ++ [c]) (depth + 1) none
      else if c = ')' then parseArgsAux rest args (current ++ [c]) (depth - 1) none
      else if c = ',' && depth = 0 then parseArgsAux rest (args ++ [trimChars current]) [] depth none
      else parseArgsAux rest args (current ++ [c]) depth none

def parseArgs (argsStr : String) : List String :=
  (parseArgsAux argsStr.data [] [] 0 none).map (fun l => (⟨l⟩ : String))

def andOp : List Char := ['&', '&']

def orOp : List Char := ['|', '|']

/-- `splitOnOperator` loop: split on the operator at parenthesis depth 0
outside string literals; parts are trimmed; a trailing empty part is
dropped.  The extra fuel argument (any value above the input length is
enough, since every step consumes at least one character) keeps the
recursion structural. -/
def splitOnOperatorAux (op : List Char) : Nat → List Char → List (List Char) → List Char → Int → Option Char → List (List Char)
  | 0, _, parts, current, _, _ =>
    if trimChars current = [] then parts else parts ++ [trimChars current]
  | _ + 1, [], parts, current, _, _ =>
    if trimChars current = [] then parts else parts ++ [trimChars current]
  | fuel + 1, c :: rest, parts, current, depth, inString =>
    match inString with
    | some q =>
      splitOnOperatorAux op fuel rest parts (current ++ [c]) depth (if c = q then none else some q)
    | none =>
      if c = '"' || c = squote then splitOnOperatorAux op fuel rest parts (current ++ [c]) depth (some c)
      else if c = '(' then splitOnOperatorAux op fuel rest parts (current ++ [c]) (depth + 1) none
      else if c = ')' then splitOnOperatorAux op fuel rest parts (current ++ [c]) (depth - 1) none
      else if depth = 0 && op.isPrefixOf (c :: rest) then
        splitOnOperatorAux op fuel (rest.drop (op.length - 1)) (parts ++ [trimChars current]) [] depth none
      else splitOnOperatorAux op fuel rest parts (current ++ [c]) depth none

def splitOnOperator (expr : String) (op : String) : List String :=
  (splitOnOperatorAux op.data (expr.data.length + 1) expr.data [] [] 0 none).map (fun l => (⟨l⟩ : String))

/-- `resolveValue`: string/number/boolean/null literals, `file.*`
pseudo-properties, then frontmatter properties (optionally `note.`-prefixed);
anything else is `undefined`. -/
def resolveValue (token : String) (ctx : NoteContext) : Value :=
  let t := trimChars token.data
  if isQuotedBy '"' t || isQuotedBy squote t then .str ⟨(t.drop 1).dropLast⟩
  else
    match parseNumLit t with
    | some q => .num q
    | none =>
      if t = "true".data then .bool true
      else if t = "false".data then .bool false
      else if t = "null".data then .null
      else if "file.".data.isPrefixOf t then
        let prop : String := ⟨t.drop 5⟩
        if prop = "name" then .str ctx.name
        else if prop = "path" then .str ctx.path
        else if prop = "folder" then .str ctx.folder
        else if prop = "ext" then .str ctx.extension
        else if prop = "size" then .num ctx.size
        else if prop = "ctime" then .num ctx.ctime
        else if prop = "mtime" then .num ctx.mtime
        else if prop = "tags" then .list (ctx.tags.map .str)
        else if prop = "links" then .list (ctx.links.map .str)
        else .undefined
      else
        match lookupA ctx.properties ⟨t⟩ with
        | some v => v
        | none =>
          if "note.".data.isPrefixOf t then
            match lookupA ctx.properties ⟨t.drop 5⟩ with
            | some v => v
            | none => .undefined
          else .undefined

inductive CompOp where
  | eq | ne | ge | le | gt | lt
deriving DecidableEq, Repr

def optRatLt : Option Rat → Option Rat → Bool
  | some x, some y => x < y
  | _, _ => false

def optRatLe : Option Rat → Option Rat → Bool
  | some x, some y => x ≤ y
  | _, _ => false

/-- The evaluator's `compare`: nullish operands coalesce to the empty
string; `==`/`!=` compare string coercions, ordering operators compare
numeric coercions (false whenever a side is NaN). -/
def jsCompare (left : Value) (op : CompOp) (right : Value) : Bool :=
  let coal : Value → Value := fun v =>
    match v with
    | .null => .str ""
    | .undefined => .str ""
    | w => w
  let l := coal left
  let r := coal right
  match op with
  | .eq => valueToString l == valueToString r
  | .ne => valueToString l != valueToString r
  | .gt => optRatLt (toNumber r) (toNumber l)
  | .lt => optRatLt (toNumber l) (toNumber r)
  | .ge => optRatLe (toNumber r) (toNumber l)
  | .le => optRatLe (toNumber l) (toNumber r)

/-- `evaluateFunction`: the fixed built-in table; an unknown name is
`false`, while accessing a missing argument throws (`none`). -/
def evaluateFunction (name : String) (argsStr : String) (ctx : NoteContext) : Option Bool :=
  let args := parseArgs argsStr
  if name = "file.hasTag" then (args.get? 0).map (fun a0 => ctx.tags.contains (stripQuotes a0))
  else if name = "file.inFolder" then
    (args.get? 0).map (fun a0 =>
      let f := stripQuotes a0
      ctx.folder == f || (f ++ "/").data.isPrefixOf ctx.folder.data)
  else if name = "file.hasLink" then (args.get? 0).map (fun a0 => ctx.links.contains (stripQuotes a0))
  else if name = "contains" then
    match args.get? 0, args.get? 1 with
    | some a0, some a1 =>
      some (containsSub (lowerChars (valueToString (resolveValue a0 ctx)).data)
        (lowerChars (stripQuotes a1).data))
    | _, _ => none
  else if name = "startsWith" then
    match args.get? 0, args.get? 1 with
    | some a0, some a1 =>
      some ((stripQuotes a1).data.isPrefixOf (valueToString (resolveValue a0 ctx)).data)
    | _, _ => none
  else if name = "endsWith" then
    match args.get? 0, args.get? 1 with
    | some a0, some a1 =>
      some ((stripQuotes a1).data.isSuffixOf (valueToString (resolveValue a0 ctx)).data)
    | _, _ => none
  else some false

/-- Match of `^([\w.]+)\((.+)\)$` against a trimmed expression: a word/dot
name, an opening parenthesis, a non-empty argument text free of line
terminators (`.` does not match them), and a final closing parenthesis. -/
def funcMatch (t : List Char) : Option (String × String) :=
  let (nm, rest) := t.span (fun c => isWordChar c || c = '.')
  if nm = [] then none
  else
    match rest with
    | '(' :: r2 =>
      match r2.getLast? with
      | some ')' =>
        let inner := r2.dropLast
        if inner ≠ [] ∧ ¬ inner.any (fun c => c = '\n' || c = '\r') then
          some ((⟨nm⟩ : String), (⟨inner⟩ : String))
        else none
      | _ => none
    | _ => none

/-- Operator alternation `(==|!=|>=|<=|>|<)` in order. -/
def opAt : List Char → Option (CompOp × List Char)
  | '=' :: '=' :: r => some (.eq, r)
  | '!' :: '=' :: r => some (.ne, r)
  | '>' :: '=' :: r => some (.ge, r)
  | '<' :: '=' :: r => some (.le, r)
  | '>' :: r => some (.gt, r)
  | '<' :: r => some (.lt, r)
  | _ => none

def hasLineTerm (l : List Char) : Bool :=
  l.any (fun c => c = '\n' || c = '\r')

/-- Scan for the lazy-left match of `^(.+?)\s*(==|!=|>=|<=|>|<)\s*(.+)$`:
try each split point left to right; at a split, whitespace is skipped
greedily (operator characters are never whitespace, so no backtracking on
`\s*` is possible), then the operator alternation is tried; the right side
is the rest with leading whitespace dropped and must be a non-empty run
free of line terminators reaching the end. -/
def compScanAux : Nat → List Char → List Char → Option (List Char × CompOp × List Char)
  | 0, _, _ => none
  | fuel + 1, leftRev, rest =>
    let attempt : Option (List Char × CompOp × List Char) :=
      match opAt (rest.dropWhile isWsChar) with
      | some (op, after) =>
        let r := after.dropWhile isWsChar
        if r ≠ [] ∧ ¬ hasLineTerm r then some (leftRev.reverse, op, r) else none
      | none => none
    match attempt with
    | some res => some res
    | none =>
      match rest with
      | [] => none
      | c :: rest' =>
        if c = '\n' || c = '\r' then none
        else compScanAux fuel (c :: leftRev) rest'

def compMatch (t : List Char) : Option (List Char × CompOp × List Char) :=
  match t with
  | [] => none
  | c0 :: r0 => if c0 = '\n' || c0 = '\r' then none else compScanAux (r0.length + 1) [c0] r0

def evalPartsAll (f : List Char → Option Bool) : List (List Char) → Option Bool
  | [] => some true
  | x :: xs =>
    match f x with
    | none => none
    | some false => some false
    | some true => evalPartsAll f xs

def evalPartsAny (f : List Char → Option Bool) : List (List Char) → Option Bool
  | [] => some false
  | x :: xs =>
    match f x with
    | none => none
    | some true => some true
    | some false => evalPartsAny f xs

/-- `evaluateString`, with explicit fuel: the source recurses on the parts
of a `&&`/`||` split, which need not shrink (the split guard is a naive
substring test), so the JS original can recurse forever; `none` models
fuel exhaustion, i.e. non-termination / stack overflow. -/
def evaluateStringFuel : Nat → List Char → NoteContext → Option Bool
  | 0, _, _ => none
  | fuel + 1, expr, ctx =>
    let trimmed := trimChars expr
    if containsSub trimmed andOp then
      evalPartsAll (fun p => evaluateStringFuel fuel p ctx)
        (splitOnOperatorAux andOp (trimmed.length + 1) trimmed [] [] 0 none)
    else if containsSub trimmed orOp then
      evalPartsAny (fun p => evaluateStringFuel fuel p ctx)
        (splitOnOperatorAux orOp (trimmed.length + 1) trimmed [] [] 0 none)
    else if trimmed.head? = some '!' then
      (evaluateStringFuel fuel (trimmed.drop 1) ctx).map (fun b => !b)
    else
      match funcMatch trimmed with
      | some (nm, args) => evaluateFunction nm args ctx
      | none =>
        match compMatch trimmed with
        | some (l, op, r) =>
          some (jsCompare (resolveValue (⟨trimChars l⟩ : String) ctx) op
            (resolveValue (⟨trimChars r⟩ : String) ctx))
        | none => some (isTruthy (resolveValue (⟨trimmed⟩ : String) ctx))

def evaluateString (fuel : Nat) (expr : String) (ctx : NoteContext) : Option Bool :=
  evaluateStringFuel fuel expr.data ctx

/-- The Bases filter-expression union: a string leaf or `and`/`or`/`not`
over a list of sub-expressions. -/
inductive FilterExpression where
  | str (s : String)
  | and (l : List FilterExpression)
  | or (l : List FilterExpression)
  | not (l : List FilterExpression)

mutual

/-- `ExpressionEvaluator.evaluate`: `and` requires every sub-expression,
`or` requires some sub-expression, `not` negates `some`; string leaves go
through the string grammar.  Evaluation is sequential with JS
short-circuiting, so a thrown/non-terminating sub-evaluation (`none`)
aborts the whole evaluation. -/
def evaluate (fuel : Nat) : FilterExpression → NoteContext → Option Bool
  | .str s, ctx => evaluateString fuel s ctx
  | .and l, ctx => evalAll fuel l ctx
  | .or l, ctx => evalAny fuel l ctx
  | .not l, ctx => (evalAny fuel l ctx).map (fun b => !b)

def evalAll (fuel : Nat) : List FilterExpression → NoteContext → Option Bool
  | [], _ => some true
  | e :: rest, ctx =>
    match evaluate fuel e ctx with
    | none => none
    | some false => some false
    | some true => evalAll fuel rest ctx

def evalAny (fuel : Nat) : List FilterExpression → NoteContext → Option Bool
  | [], _ => some false
  | e :: rest, ctx =>
    match evaluate fuel e ctx with
    | none => none
    | some true => some true
    | some false => evalAny fuel rest ctx

end

/-! Markdown text-extraction primitives (`link-resolver` module). -/

/-- Match one wikilink at the current position: `[[` then a non-empty run
of characters other than `]` and `|`, then an optional `|display` part,
then `]]`.  Returns the capture and the rest after the match. -/
def matchWiki : List Char → Option (List Char × List Char)
  | '[' :: '[' :: r =>
    let (cap, r2) := r.span (fun c => c ≠ ']' && c ≠ '|')
    if cap = [] then none
    else
      match r2 with
      | '|' :: r3 =>
        let (disp, r4) := r3.span (fun c => c ≠ ']')
        if disp = [] then none
        else
          match r4 with
          | ']' :: ']' :: r5 => some (cap, r5)
          | _ => none
      | ']' :: ']' :: r5 => some (cap, r5)
      | _ => none
  | _ => none

/-- Global scan for `\[\[([^\]|]+)(?:\|[^\]]+)?\]\]`. -/
def scanWiki : Nat → List Char → List (List Char)
  | 0, _ => []
  | _, [] => []
  | fuel + 1, c :: rest =>
    match matchWiki (c :: rest) with
    | some (cap, r5) => cap :: scanWiki fuel r5
    | none => scanWiki fuel rest

/-- `extractLinks`: all wikilink targets, trimmed, deduplicated in
insertion order (JS `Set`).  The regex also fires on the `[[...]]` part of
an embed `![[...]]`, exactly as in the source. -/
def extractLinks (body : String) : List String :=
  dedupList ((scanWiki (body.data.length + 1) body.data).map (fun c => (⟨trimChars c⟩ : String)))

/-- Global scan for `!\[\[([^\]|]+)(?:\|[^\]]+)?\]\]`. -/
def scanEmbeds : Nat → List Char → List (List Char)
  | 0, _ => []
  | _, [] => []
  | fuel + 1, c :: rest =>
    if c = '!' then
      match matchWiki rest with
      | some (cap, r5) => cap :: scanEmbeds fuel r5
      | none => scanEmbeds fuel rest
    else scanEmbeds fuel rest

/-- `extractEmbeds`. -/
def extractEmbeds (body : String) : List String :=
  dedupList ((scanEmbeds (body.data.length + 1) body.data).map (fun c => (⟨trimChars c⟩ : String)))

def findTripleDash : List Char → Option (List Char)
  | [] => none
  | '-' :: '-' :: '-' :: r => some r
  | _ :: t => findTripleDash t

/-- Model of `content.replace(/^---[\s\S]*?---\n?/, '')`: when the text
starts with `---`, drop through the earliest following `---` and one
optional newline. -/
def stripFrontmatterBlock (cs : List Char) : List Char :=
  match cs with
  | '-' :: '-' :: '-' :: r =>
    match findTripleDash r with
    | some rest =>
      match rest with
      | '\n' :: r2 => r2
      | _ => rest
    | none => cs
  | _ => cs

def findTripleTick : List Char → Option (List Char)
  | [] => none
  | '`' :: '`' :: '`' :: r => some r
  | _ :: t => findTripleTick t

/-- Model of `.replace(/```[\s\S]*?```/g, '')`. -/
def removeFences : Nat → List Char → List Char
  | 0, l => l
  | _, [] => []
  | fuel + 1, '`' :: '`' :: '`' :: r =>
    match findTripleTick r with
    | some rest => removeFences fuel rest
    | none => '`' :: '`' :: '`' :: r
  | fuel + 1, c :: r => c :: removeFences fuel r

/-- Model of ``.replace(/`[^`]+`/g, '')``. -/
def removeInline : Nat → List Char → List Char
  | 0, l => l
  | _, [] => []
  | fuel + 1, '`' :: r =>
    let (mid, r2) := r.span (fun c => c ≠ '`')
    if mid ≠ [] then
      match r2 with
      | '`' :: r3 => removeInline fuel r3
      | _ => '`' :: removeInline fuel r
    else '`' :: removeInline fuel r
  | fuel + 1, c :: r => c :: removeInline fuel r

def tagBodyChar (c : Char) : Bool :=
  ('a' ≤ c && c ≤ 'z') || ('A' ≤ c && c ≤ 'Z') || isDigitChar c || c = '_' || c = '/' || c = '-'

/-- Global scan for `(?:^|\s)#([a-zA-Z0-9_/\-]+)`; without the `m` flag
`^` only matches at the very start of the text. -/
def tagScanGo : Nat → List Char → Bool → List (List Char)
  | 0, _, _ => []
  | _, [], _ => []
  | fuel + 1, '#' :: rest, true =>
    let (cap, r2) := rest.span tagBodyChar
    if cap ≠ [] then cap :: tagScanGo fuel r2 false
    else tagScanGo fuel rest false
  | fuel + 1, c :: rest, _ =>
    if isWsChar c then
      match rest with
      | '#' :: r2 =>
        let (cap, r3) := r2.span tagBodyChar
        if cap ≠ [] then cap :: tagScanGo fuel r3 false
        else tagScanGo fuel rest false
      | _ => tagScanGo fuel rest false
    else tagScanGo fuel rest false

def normalizeTag (s : String) : String :=
  if s.data.head? = some '#' then ⟨s.data.drop 1⟩ else s

/-- `extractTags`: frontmatter `tags` (array of strings or single string,
gated on JS truthiness of the property) plus inline `#tag` markers from
the content with the frontmatter block, code fences and inline code
removed; all normalized and deduplicated in insertion order. -/
def extractTags (content : String) (frontmatter : List (String × Value)) : List String :=
  let fmTags : List String :=
    match lookupA frontmatter "tags" with
    | some v =>
      if jsTruthy v then
        match v with
        | .list l => l.filterMap (fun x => match x with | .str s => some (normalizeTag s) | _ => none)
        | .str s => [normalizeTag s]
        | _ => []
      else []
    | none => []
  let body := removeInline (content.data.length + 1)
    (removeFences (content.data.length + 1) (stripFrontmatterBlock content.data))
  let inline := (tagScanGo (body.length + 1) body true).map (fun c => normalizeTag (⟨c⟩ : String))
  dedupList (fmTags ++ inline)

/-! Conversation classifier (`detectConversation`). -/

/-- Known AI source names. -/
def aiSources : List String := ["Claude", "ChatGPT", "Perplexity", "Mistral", "DeepSeek", "Gemini"]

def convTags : List String := ["conversation", "research"]

/-- The tail of a role marker after the speaker group: `\*\*\s*:`. -/
def roleTail : List Char → Option (List Char)
  | '*' :: '*' :: r =>
    match r.dropWhile isWsChar with
    | ':' :: r2 => some r2
    | _ => none
  | _ => none

/-- Lazy candidates for `.*?\)` after an opening parenthesis: for every
closing parenthesis not preceded by a line terminator, the inner text and
the rest after it, in order of increasing inner length. -/
def parenCands (acc : List Char) : List Char → List (List Char × List Char)
  | [] => []
  | c :: r =>
    if c = '\n' || c = '\r' then []
    else if c = ')' then (acc.reverse, r) :: parenCands (c :: acc) r
    else parenCands (c :: acc) r

def firstRoleTail : List (List Char × List Char) → Option (List Char × List Char)
  | [] => none
  | (inner, rest) :: cs =>
    match roleTail rest with
    | some r2 => some (inner, r2)
    | none => firstRoleTail cs

/-- Match `\*\*(\w+(?:\s*\(.*?\))?)\*\*\s*:` at the current position,
with the regex backtracking order (annotation group tried greedily first,
lazy inner extended on demand).  Returns the captured group and the rest
after the match. -/
def matchRole : List Char → Option (List Char × List Char)
  | '*' :: '*' :: r =>
    let (w, r2) := r.span isWordChar
    if w = [] then none
    else
      let (ws1, r3) := r2.span isWsChar
      let annotRes : Option (List Char × List Char) :=
        match r3 with
        | '(' :: r4 =>
          match firstRoleTail (parenCands [] r4) with
          | some (inner, rest) => some (w ++ ws1 ++ '(' :: (inner ++ [')']), rest)
          | none => none
        | _ => none
      match annotRes with
      | some res => some res
      | none =>
        match roleTail r2 with
        | some rest => some (w, rest)
        | none => none
  | _ => none

def findCloseParen : List Char → Option (List Char)
  | [] => none
  | c :: r =>
    if c = '\n' || c = '\r' then none
    else if c = ')' then some r
    else findCloseParen r

/-- Model of `group.replace(/\s*\(.*?\)/, '')`: remove the first
whitespace-run + parenthesized chunk (up to the first closing parenthesis
with no line terminator in between). -/
def replFirstAnnot (pre : List Char) : List Char → List Char
  | [] => pre
  | c :: rest =>
    let r2 := (c :: rest).dropWhile isWsChar
    match r2 with
    | '(' :: r3 =>
      match findCloseParen r3 with
      | some after => pre ++ after
      | none => replFirstAnnot (pre ++ [c]) rest
    | _ => replFirstAnnot (pre ++ [c]) rest

/-- The cleaned speaker of one role-marker occurrence. -/
def speakerOf (group : List Char) : String :=
  ⟨trimChars (replFirstAnnot [] group)⟩

/-- Global multiline scan for the role-marker regex, returning cleaned
speakers in occurrence order. -/
def roleScanGo : Nat → List Char → Bool → List String
  | 0, _, _ => []
  | _, [], _ => []
  | fuel + 1, c :: rest, atStart =>
    if atStart then
      match matchRole (c :: rest) with
      | some (group, r2) => speakerOf group :: roleScanGo fuel r2 false
      | none => roleScanGo fuel rest (c = '\n' || c = '\r')
    else roleScanGo fuel rest (c = '\n' || c = '\r')

def roleSpeakers (content : String) : List String :=
  roleScanGo (content.data.length + 1) content.data true

/-- Match `^>\s*\[!([\w]+)\]` at the current position. -/
def matchCallout : List Char → Option (List Char × List Char)
  | '>' :: r =>
    match r.dropWhile isWsChar with
    | '[' :: '!' :: r3 =>
      let (w, r4) := r3.span isWordChar
      if w = [] then none
      else
        match r4 with
        | ']' :: r5 => some (w, r5)
        | _ => none
    | _ => none
  | _ => none

def calloutScanGo : Nat → List Char → Bool → List String
  | 0, _, _ => []
  | _, [], _ => []
  | fuel + 1, c :: rest, atStart =>
    if atStart then
      match matchCallout (c :: rest) with
      | some (w, r2) => (⟨w⟩ : String) :: calloutScanGo fuel r2 false
      | none => calloutScanGo fuel rest (c = '\n' || c = '\r')
    else calloutScanGo fuel rest (c = '\n' || c = '\r')

def calloutRawTypes (content : String) : List String :=
  calloutScanGo (content.data.length + 1) content.data true

structure ConversationMetadata where
  isConversation : Bool
  source : Option String
  messageCount : Nat
  userMessageCount : Nat
  assistantMessageCount : Nat
  speakers : List String
  hasCallouts : Bool
  calloutTypes : List String
deriving DecidableEq, Repr

/-- `detectConversation`: frontmatter source field, conversation/research
tags, AI-source tags, role markers (with source inference from detected
speakers), callout markers, and the final role-marker heuristic. -/
def detectConversation (content : String) (frontmatter : List (String × Value)) : ConversationMetadata :=
  let s1 : Option String × Bool :=
    match lookupA frontmatter "source" with
    | some (.str s) => if aiSources.contains s then (some s, true) else (none, false)
    | _ => (none, false)
  let tags := extractTags content frontmatter
  let conv2 := s1.2 || tags.any (fun t => convTags.contains t)
  let s2 : Option String × Bool :=
    match s1.1 with
    | some s => (some s, conv2)
    | none =>
      match tags.find? (fun t => (aiSources.map lowerStr).contains t) with
      | some t =>
        match aiSources.find? (fun s => lowerStr s = t) with
        | some s => (some s, true)
        | none => (none, conv2)
      | none => (none, conv2)
  let speakerOcc := roleSpeakers content
  let speakers := dedupList speakerOcc
  let messageCount := speakerOcc.length
  let userCount := speakerOcc.countP (fun s => s = "User")
  let assistantCount := speakerOcc.countP (fun s => s ≠ "User")
  let s3 : Option String × Bool :=
    match s2.1 with
    | some s => (some s, s2.2)
    | none =>
      if speakers.length > 0 then
        match speakers.find? (fun s => aiSources.contains s) with
        | some s => (some s, true)
        | none => (none, s2.2)
      else (none, s2.2)
  let rawCallouts := calloutRawTypes content
  let isConv :=
    if 2 ≤ messageCount ∧ speakers.contains "User" ∧ 2 ≤ speakers.length then true else s3.2
  { isConversation := isConv
    source := s3.1
    messageCount := messageCount
    userMessageCount := userCount
    assistantMessageCount := assistantCount
    speakers := speakers
    hasCallouts := !rawCallouts.isEmpty
    calloutTypes := dedupList (rawCallouts.map (fun s => (⟨upperChars s.data⟩ : String))) }

/-! Link graph builder and query engine (`graph-builder` / `graph-queries`). -/

structure GraphNode where
  path : String
  title : String
  tags : List String
  outgoing : List String
  incoming : List String
  embeds : List String
deriving DecidableEq, Repr

/-- A built graph snapshot: node map (association list in insertion
order, unique keys) and the deduplicated unresolved-link set.  The
wall-clock `buildTime` of the source is observability only and is not
modelled. -/
structure VaultGraph where
  nodes : List (String × GraphNode)
  unresolvedLinks : List String
deriving DecidableEq, Repr

/-- Result of `readFile` + `parseFrontmatter` for one document, as
delivered by the out-of-scope storage/frontmatter collaborators:
the parsed frontmatter map, the metadata-stripped body, and the raw
content. -/
structure ReadResult where
  frontmatter : List (String × Value)
  body : String
  content : String
deriving DecidableEq, Repr

/-- One listed file; `read = none` models a file whose `readFile` (or
frontmatter parse) throws, which `buildGraph` skips silently. -/
structure FileEntry where
  path : String
  name : String
  extension : String
  read : Option ReadResult
deriving DecidableEq, Repr

/-- `resolveLink`: strip a `#heading` anchor, then try the lowercased
name directly, with a `.md` suffix stripped, and finally the last path
segment, against the name-lookup index. -/
def resolveLink (target : String) (nameLookup : List (String × String)) : Option String :=
  let cleanTarget := trimChars ((splitOnChar '#' target.data).headD [])
  if cleanTarget = [] then none
  else
    let lower := lowerChars cleanTarget
    match lookupA nameLookup (⟨lower⟩ : String) with
    | some p => some p
    | none =>
      match lookupA nameLookup (⟨stripMdSuffix lower⟩ : String) with
      | some p => some p
      | none =>
        let segs := splitOnChar '/' lower
        let last := segs.getLastD lower
        let baseName : List Char := if last = [] then lower else last
        lookupA nameLookup (⟨baseName⟩ : String)

def mdFilter (files : List FileEntry) : List FileEntry :=
  files.filter (fun f => f.extension = ".md")

/-- The case-insensitive name-lookup index: for each markdown file, its
name and its path without the `.md` extension, both lowercased; later
files overwrite earlier ones per key (`Map.set`). -/
def buildNameLookup (mdFiles : List FileEntry) : List (String × String) :=
  mdFiles.foldl
    (fun m f =>
      setAssoc (setAssoc m (lowerStr f.name) f.path) (⟨lowerChars (stripMdSuffix f.path.data)⟩ : String) f.path)
    []

/-- The JS-truthiness fallback `((frontmatter.title as string) || file.name)`. -/
def titleOf (f : FileEntry) (r : ReadResult) : String :=
  match lookupA r.frontmatter "title" with
  | some v => if jsTruthy v then valueToString v else f.name
  | none => f.name

/-- One step of the per-link resolution loop: a resolvable target is
appended to the edge list, an unresolvable raw target is added to the
deduplicated unresolved set. -/
def resolveStep (nameLookup : List (String × String))
    (p : List String × List String) (ℓ : String) : List String × List String :=
  match resolveLink ℓ nameLookup with
  | some t => (p.1 ++ [t], p.2)
  | none => (p.1, addSet p.2 ℓ)

/-- Phase-1 step for one file: extract links/embeds/tags, resolve each
link through the index, and insert the node; unreadable files are
skipped. -/
def phase1Step (nameLookup : List (String × String))
    (acc : List (String × GraphNode) × List String) (f : FileEntry) :
    List (String × GraphNode) × List String :=
  match f.read with
  | none => acc
  | some r =>
    let links := extractLinks r.body
    let embeds := extractEmbeds r.body
    let tags := extractTags r.content r.frontmatter
    let resolved := links.foldl (resolveStep nameLookup) ([], acc.2)
    (setAssoc acc.1 f.path
      { path := f.path, title := titleOf f r, tags := tags,
        outgoing := resolved.1, incoming := [], embeds := embeds },
      resolved.2)

def buildPhase1 (mdFiles : List FileEntry) (nameLookup : List (String × String)) :
    List (String × GraphNode) × List String :=
  mdFiles.foldl (phase1Step nameLookup) ([], [])

/-- Phase-2 update of one directed edge: push the source path onto the
target node's incoming list (no-op when the target has no node). -/
def pushIncoming (nodes : List (String × GraphNode)) (target source : String) :
    List (String × GraphNode) :=
  nodes.map (fun e => if e.1 = target then (e.1, { e.2 with incoming := e.2.incoming ++ [source] }) else e)

/-- Phase 2: for every node in insertion order, push its path onto the
incoming list of each of its outgoing targets. -/
def buildPhase2 (nodes1 : List (String × GraphNode)) : List (String × GraphNode) :=
  nodes1.foldl
    (fun acc e => e.2.outgoing.foldl (fun a t => pushIncoming a t e.1) acc)
    nodes1

/-- `GraphBuilder.buildGraph`. -/
def buildGraph (files : List FileEntry) : VaultGraph :=
  let mdFiles := mdFilter files
  let nameLookup := buildNameLookup mdFiles
  let p1 := buildPhase1 mdFiles nameLookup
  { nodes := buildPhase2 p1.1, unresolvedLinks := p1.2 }

def lookupNode (g : VaultGraph) (p : String) : Option GraphNode :=
  lookupA g.nodes p

inductive Direction where
  | both | outgoing | incoming
deriving DecidableEq, Repr

/-- The neighbor list read for one node under a direction filter. -/
def neighborsOf (g : VaultGraph) (dir : Direction) (p : String) : List String :=
  match lookupNode g p with
  | none => []
  | some node =>
    (if dir = .both || dir = .outgoing then node.outgoing else []) ++
    (if dir = .both || dir = .incoming then node.incoming else [])

/-- Inner loop of `getNeighbors` over one frontier node's neighbor list:
skip visited paths, mark the rest visited, and collect the target node and
a queue entry when the neighbor exists. -/
def neighborScan (g : VaultGraph) (d : Nat) :
    List String → List (String × Nat) → List String → List GraphNode →
    List (String × Nat) × List String × List GraphNode
  | [], adds, visited, result => (adds, visited, result)
  | n :: ns, adds, visited, result =>
    if visited.contains n then neighborScan g d ns adds visited result
    else
      let visited' := visited ++ [n]
      match lookupNode g n with
      | some nn => neighborScan g d ns (adds ++ [(n, d + 1)]) visited' (result ++ [nn])
      | none => neighborScan g d ns adds visited' result

/-- Main loop of `getNeighbors`: the `result.length < maxNodes` guard is
the `while` condition, checked before each frontier expansion. -/
def neighborsLoop (g : VaultGraph) (depth maxNodes : Nat) (dir : Direction) :
    Nat → List (String × Nat) → List String → List GraphNode → List GraphNode
  | 0, _, _, result => result
  | _ + 1, [], _, result => result
  | fuel + 1, (p, d) :: rest, visited, result =>
    if maxNodes ≤ result.length then result
    else if depth ≤ d then neighborsLoop g depth maxNodes dir fuel rest visited result
    else
      match lookupNode g p with
      | none => neighborsLoop g depth maxNodes dir fuel rest visited result
      | some node =>
        let nbrs :=
          (if dir = .both || dir = .outgoing then node.outgoing else []) ++
          (if dir = .both || dir = .incoming then node.incoming else [])
        let s := neighborScan g d nbrs [] visited result
        neighborsLoop g depth maxNodes dir fuel (rest ++ s.1) s.2.1 s.2.2

/-- Fuel sufficient for both graph traversal loops: every queue push is
accompanied by a fresh visited path drawn from the adjacency lists, so the
number of loop iterations is bounded by the total adjacency size. -/
def graphFuel (g : VaultGraph) : Nat :=
  2 + (g.nodes.map (fun e => e.2.outgoing.length + e.2.incoming.length)).sum

/-- `getNeighbors`. -/
def getNeighbors (g : VaultGraph) (path : String) (depth : Nat := 1)
    (dir : Direction := .both) (maxNodes : Nat := 50) : List GraphNode :=
  neighborsLoop g depth maxNodes dir (graphFuel g) [(path, 0)] [path] []

/-- The inverse-adjacency comprehension phase 2 computes: all sources
whose outgoing list hits `p`, in source order with multiplicity. -/
def backlinksOf (entries : List (String × GraphNode)) (p : String) : List String :=
  (entries.map (fun e => (e.2.outgoing.filter (fun t => t == p)).map (fun _ => e.1))).flatten

/-- The resolved-target list phase 1 computes for one link list. -/
def resolvedLinks (nameLookup : List (String × String)) (links : List String) : List String :=
  links.filterMap (fun ℓ => resolveLink ℓ nameLookup)

/-- Test `newTrail.length <= shortestLength` (`Infinity` as `none`). -/
def leOptNat (n : Nat) : Option Nat → Bool
  | none => true
  | some m => n ≤ m

/-- Test `trail.length > shortestLength`. -/
def gtOptNat (n : Nat) : Option Nat → Bool
  | none => false
  | some m => m < n

/-- Inner loop of `findPath` over one frontier node's neighbors (outgoing
and incoming): a visited neighbor other than the target is skipped; a
target hit within the best known length is recorded and tightens it;
other neighbors are marked visited and enqueued with the extended trail. -/
def pathScan (toPath : String) (trail : List String) :
    List String → List (String × List String) → List String →
    List (List String) → Option Nat →
    List (String × List String) × List String × List (List String) × Option Nat
  | [], adds, visited, paths, shortest => (adds, visited, paths, shortest)
  | n :: ns, adds, visited, paths, shortest =>
    if visited.contains n && n ≠ toPath then pathScan toPath trail ns adds visited paths shortest
    else
      let newTrail := trail ++ [n]
      if n = toPath then
        if leOptNat newTrail.length shortest then
          pathScan toPath trail ns adds visited (paths ++ [newTrail]) (some newTrail.length)
        else pathScan toPath trail ns adds visited paths shortest
      else pathScan toPath trail ns (adds ++ [(n, newTrail)]) (visited ++ [n]) paths shortest

/-- Main BFS loop of `findPath`; the two `break` guards abandon the whole
loop once a popped trail exceeds `maxDepth` or the best known length. -/
def findPathLoop (g : VaultGraph) (toPath : String) (maxDepth : Nat) :
    Nat → List (String × List String) → List String → List (List String) → Option Nat →
    List (List String)
  | 0, _, _, paths, _ => paths
  | _ + 1, [], _, paths, _ => paths
  | fuel + 1, (p, trail) :: rest, visited, paths, shortest =>
    if maxDepth < trail.length then paths
    else if gtOptNat trail.length shortest then paths
    else
      match lookupNode g p with
      | none => findPathLoop g toPath maxDepth fuel rest visited paths shortest
      | some node =>
        let s := pathScan toPath trail (node.outgoing ++ node.incoming) [] visited paths shortest
        findPathLoop g toPath maxDepth fuel (rest ++ s.1) s.2.1 s.2.2.1 s.2.2.2

/-- `findPath`: trivial single-node path when source equals target (checked
before membership), empty result when either endpoint is missing. -/
def findPath (g : VaultGraph) (fromPath toPath : String) (maxDepth : Nat := 10) :
    List (List String) :=
  if fromPath = toPath then [[fromPath]]
  else
    match lookupNode g fromPath, lookupNode g toPath with
    | some _, some _ =>
      findPathLoop g toPath maxDepth (graphFuel g) [(fromPath, [fromPath])] [fromPath] [] none
    | _, _ => []

/-- Largest per-node neighbor-list size of a graph. -/
def maxAdj (g : VaultGraph) : Nat :=
  (g.nodes.map (fun e => e.2.outgoing.length + e.2.incoming.length)).foldr max 0

/-- Reachability from `s` within `k` hops along the direction-filtered
adjacency, as explored by the traversal. -/
inductive ReachWithin (g : VaultGraph) (dir : Direction) (s : String) : String → Nat → Prop where
  | refl (k : Nat) : ReachWithin g dir s s k
  | step {p q : String} {k : Nat} :
      ReachWithin g dir s p k → q ∈ neighborsOf g dir p → ReachWithin g dir s q (k + 1)

/-! Bases metadata query engine (`BasesQueryEngine`). -/

structure OrderDef where
  property : String
  direction : String

structure ViewConfig where
  type : String
  name : String
  filters : Option FilterExpression
  order : Option (List OrderDef)
  limit : Option Int
  columns : Option (List String)

structure BaseYAML where
  filters : Option FilterExpression
  formulas : Option (List (String × String))
  views : List ViewConfig

structure QNote where
  path : String
  name : String
  properties : List (String × Value)

structure BaseQueryResult where
  notes : List QNote
  total : Nat
  view : ViewConfig

/-- One vault file as listed by the storage collaborator; `read = none`
models a `readNote` that throws and is skipped. -/
structure VNote where
  content : String
  frontmatter : List (String × Value)
deriving DecidableEq, Repr

structure VFile where
  path : String
  name : String
  extension : String
  size : Rat
  ctime : Rat
  mtime : Rat
  read : Option VNote
deriving DecidableEq, Repr

/-- `getPropertyValue`: `file.*` pseudo-properties or the raw metadata. -/
def getPropertyValue (ctx : NoteContext) (key : String) : Value :=
  if "file.".data.isPrefixOf key.data then
    let prop : String := ⟨key.data.drop 5⟩
    if prop = "name" then .str ctx.name
    else if prop = "path" then .str ctx.path
    else if prop = "folder" then .str ctx.folder
    else if prop = "ext" then .str ctx.extension
    else if prop = "size" then .num ctx.size
    else if prop = "ctime" then .num ctx.ctime
    else if prop = "mtime" then .num ctx.mtime
    else if prop = "tags" then .list (ctx.tags.map .str)
    else if prop = "links" then .list (ctx.links.map .str)
    else .undefined
  else
    match lookupA ctx.properties key with
    | some v => v
    | none => .undefined

/-- JS `String(x ?? '')`. -/
def nullishToString : Value → String
  | .null => ""
  | .undefined => ""
  | v => valueToString v

/-- Match `^name\((.+)\)$` for a fixed `name(` opener: the inner text is
everything up to the final closing parenthesis, non-empty and free of
line terminators. -/
def callInner (opener : List Char) (f : List Char) : Option (List Char) :=
  if opener.isPrefixOf f then
    let rest := f.drop opener.length
    match rest.getLast? with
    | some ')' =>
      let inner := rest.dropLast
      if inner ≠ [] ∧ ¬ hasLineTerm inner then some inner else none
    | _ => none
  else none

/-- The `concat` argument evaluation: naive split on every comma, each
part trimmed; a part wrapped in double quotes is a literal, anything else
is a property reference stringified with nullish fallback to `""`. -/
def concatArgsJoin (ctx : NoteContext) (inner : List Char) : String :=
  String.join ((splitOnChar ',' inner).map (fun a =>
    let t := trimChars a
    if t.head? = some '"' && t.getLast? = some '"' then (⟨(t.drop 1).dropLast⟩ : String)
    else nullishToString (getPropertyValue ctx (⟨t⟩ : String))))

/-- `evaluateFormula`: a formula without `(`, `+`, `-` is a direct
property reference; otherwise `concat(...)` joins its naively comma-split
arguments and `length(...)` takes an array/string length; any other text
is returned verbatim. -/
def evaluateFormula (formula : String) (ctx : NoteContext) : Value :=
  if ¬ formula.data.contains '(' ∧ ¬ formula.data.contains '+' ∧ ¬ formula.data.contains '-' then
    getPropertyValue ctx (⟨trimChars formula.data⟩ : String)
  else
    match callInner "concat(".data formula.data with
    | some inner => .str (concatArgsJoin ctx inner)
    | none =>
      match callInner "length(".data formula.data with
      | some inner =>
        match getPropertyValue ctx (⟨trimChars inner⟩ : String) with
        | .list l => .num l.length
        | .str s => .num s.length
        | _ => .num 0
      | none => .str formula

def isNullish : Value → Bool
  | .null => true
  | .undefined => true
  | _ => false

def orderingToInt : Ordering → Int
  | .lt => -1
  | .eq => 0
  | .gt => 1

/-- `compareValues` for sorting: strict equality is 0, nullish sorts
first, numbers compare numerically, everything else by string coercion
(`localeCompare` modelled as code-point comparison). -/
def compareValues (a b : Value) : Int :=
  if strictEq a b then 0
  else if isNullish a then -1
  else if isNullish b then 1
  else
    match a, b with
    | .num x, .num y => if x < y then -1 else if y < x then 1 else 0
    | _, _ => orderingToInt (compare (valueToString a) (valueToString b))

def cmpByOrder (a b : NoteContext) : List OrderDef → Int
  | [] => 0
  | o :: rest =>
    let c := compareValues (getPropertyValue a o.property) (getPropertyValue b o.property)
    if c ≠ 0 then (if o.direction = "desc" then -c else c) else cmpByOrder a b rest

def folderOf (p : List Char) : List Char :=
  if p.contains '/' then ((p.reverse.dropWhile (fun c => c ≠ '/')).drop 1).reverse else []

/-- Steps 1-2 of `query`: build a `NoteContext` for every readable
markdown file, skipping unreadable ones. -/
def buildContexts (files : List VFile) : List NoteContext :=
  (files.filter (fun f => f.extension = ".md")).filterMap (fun f =>
    match f.read with
    | none => none
    | some note =>
      some { path := f.path
             name := ⟨stripMdSuffix f.name.data⟩
             folder := ⟨folderOf f.path.data⟩
             extension := f.extension
             size := f.size
             ctime := f.ctime
             mtime := f.mtime
             tags := extractTags note.content note.frontmatter
             links := extractLinks note.content
             properties := note.frontmatter })

/-- Filtering with a fuelled evaluator: a sub-evaluation that throws or
diverges (`none`) aborts the whole query. -/
def optionFilter (f : NoteContext → Option Bool) : List NoteContext → Option (List NoteContext)
  | [] => some []
  | x :: xs =>
    match f x with
    | none => none
    | some true => (optionFilter f xs).map (x :: ·)
    | some false => optionFilter f xs

/-- `BasesQueryEngine.query`: view selection (`views[viewIndex] ||
views[0]`; no view at all throws, modelled as `none`), context building,
base- then view-level filtering, formula computation (later formulas see
earlier results), stable multi-key sort, total/limit, and column
projection. -/
def query (fuel : Nat) (base : BaseYAML) (viewIndex : Nat) (files : List VFile) :
    Option BaseQueryResult :=
  let viewSel : Option ViewConfig :=
    match base.views.get? viewIndex with
    | some v => some v
    | none => base.views.get? 0
  match viewSel with
  | none => none
  | some view =>
    let contexts := buildContexts files
    let f1 : Option (List NoteContext) :=
      match base.filters with
      | none => some contexts
      | some fe => optionFilter (fun ctx => evaluate fuel fe ctx) contexts
    match f1 with
    | none => none
    | some filtered1 =>
      let f2 : Option (List NoteContext) :=
        match view.filters with
        | none => some filtered1
        | some fe => optionFilter (fun ctx => evaluate fuel fe ctx) filtered1
      match f2 with
      | none => none
      | some filtered2 =>
        let withFormulas :=
          match base.formulas with
          | none => filtered2
          | some fs =>
            filtered2.map (fun ctx =>
              fs.foldl
                (fun c (kf : String × String) =>
                  { c with properties :=
                      setAssoc c.properties ("_formula_" ++ kf.1) (evaluateFormula kf.2 c) })
                ctx)
        let sorted :=
          match view.order with
          | some os =>
            if os.length > 0 then withFormulas.mergeSort (fun a b => cmpByOrder a b os ≤ 0)
            else withFormulas
          | none => withFormulas
        let total := sorted.length
        let limited :=
          match view.limit with
          | some l => if l > 0 then sorted.take l.toNat else sorted
          | none => sorted
        let notes := limited.map (fun ctx =>
          let props : List (String × Value) :=
            match view.columns with
            | some cols => cols.foldl (fun ps col => setAssoc ps col (getPropertyValue ctx col)) []
            | none =>
              setAssoc (setAssoc (setAssoc (setAssoc (setAssoc ctx.properties
                "file.name" (.str ctx.name))
                "file.path" (.str ctx.path))
                "file.folder" (.str ctx.folder))
                "file.tags" (.list (ctx.tags.map .str)))
                "file.mtime" (.num ctx.mtime)
          { path := ctx.path, name := ctx.name, properties := props : QNote })
        some { notes := notes, total := total, view := view }

/-! Concrete instances used by witnesses and counterexamples. -/

/-- A sample evaluation context. -/
def sampleCtx : NoteContext :=
  { path := "notes/a.md", name := "a", folder := "notes", extension := ".md",
    size := 10, ctime := 0, mtime := 5, tags := ["x"], links := ["b.md"],
    properties := [("status", Value.str "done"), ("title", Value.str "X"),
      ("items", Value.list [Value.num 1, Value.num 2])] }

/-- A filter expression whose only `&&` occurrences sit inside a quoted
string literal. -/
def badAndExpr : String := "contains(title, \"a && b\")"

/-- A readable markdown file with empty frontmatter. -/
def mdFile (p b : String) : FileEntry :=
  { path := p, name := p, extension := ".md",
    read := some { frontmatter := [], body := b, content := b } }

def chainFiles : List FileEntry := [mdFile "a.md" "[[b]]", mdFile "b.md" "[[c]]", mdFile "c.md" ""]

def chainGraph : VaultGraph := buildGraph chainFiles

def fanFiles : List FileEntry := [mdFile "a.md" "[[b]] [[c]]", mdFile "b.md" "", mdFile "c.md" ""]

def fanGraph : VaultGraph := buildGraph fanFiles

/-- A listed markdown file whose read fails. -/
def unreadableB : FileEntry := { path := "b.md", name := "b.md", extension := ".md", read := none }

def dangleFiles : List FileEntry := [mdFile "a.md" "[[b]]", unreadableB]

def dangleGraph : VaultGraph := buildGraph dangleFiles

def unresFiles : List FileEntry := [mdFile "a.md" "[[b]] [[zzz]]", mdFile "b.md" ""]

def unresGraph : VaultGraph := buildGraph unresFiles

def convContent : String := "**User**: hi\n\n---\n\n**Claude**: hello"

def convFm : List (String × Value) := [("tags", Value.list [Value.str "conversation"])]

def sampleVFile (p : String) (props : List (String × Value)) : VFile :=
  { path := p, name := p, extension := ".md", size := 1, ctime := 0, mtime := 0,
    read := some { content := "", frontmatter := props } }

def sampleView : ViewConfig :=
  { type := "table", name := "V1", filters := some (.str "status == \"done\""),
    order := none, limit := none, columns := some ["status"] }

def sampleBase : BaseYAML := { filters := none, formulas := none, views := [sampleView] }

def sampleVFiles : List VFile :=
  [sampleVFile "a.md" [("status", Value.str "done")], sampleVFile "b.md" [("status", Value.str "open")]]

/-! Helper lemmas. -/

theorem mem_addSet {l : List String} {x y : String} : x ∈ addSet l y ↔ x ∈ l ∨ x = y := by
  unfold addSet
  by_cases h : l.contains y
  · rw [if_pos h]
    constructor
    · exact Or.inl
    · rintro (hx | rfl)
      · exact hx
      · exact List.mem_of_elem_eq_true h
  · rw [if_neg h]
    simp [List.mem_append]

theorem mem_foldl_addSet (l : List String) (acc : List String) (x : String) :
    x ∈ l.foldl addSet acc ↔ x ∈ acc ∨ x ∈ l := by
  induction l generalizing acc with
  | nil => simp
  | cons y ys ih =>
    simp only [List.foldl_cons, ih, mem_addSet, List.mem_cons]
    tauto

theorem mem_dedupList {l : List String} {x : String} : x ∈ dedupList l ↔ x ∈ l := by
  unfold dedupList
  rw [mem_foldl_addSet]
  simp

/-! Claim C7. -/

/-- C7 counterexample: the claim says an endpoint absent from the graph
always yields the empty result, "including the case where s equals t and
that path is not a node of the graph" — but `findPath` checks `s = t`
before membership, so on the empty built graph `findPath "a" "a"` returns
the trivial path even though `"a"` is not a node. -/
theorem C7_counterexample :
    findPath (buildGraph []) "a" "a" 10 = [["a"]] ∧ lookupNode (buildGraph []) "a" = none := by
  constructor <;> rfl

/-- C7 (amended): `findPath` returns the single trivial one-node path
whenever source equals target, regardless of whether that path is a node
of the graph; when source and target differ, the empty result (not an
error) is returned if either endpoint is absent from the node set. -/
theorem C7_trivial_and_missing_endpoints (g : VaultGraph) (s t : String) (d : Nat) :
    (s = t → findPath g s t d = [[s]]) ∧
    (s ≠ t → (lookupNode g s = none ∨ lookupNode g t = none) → findPath g s t d = []) := by
  constructor
  · intro h
    subst h
    simp [findPath]
  · intro hne hm
    unfold findPath
    rw [if_neg hne]
    rcases hm with h | h
    · rw [h]
    · rw [h]
      cases lookupNode g s <;> rfl

/-- C7 witness: both amended behaviors on the concrete three-note chain
graph. -/
theorem C7_witness :
    findPath chainGraph "a.md" "a.md" 10 = [["a.md"]] ∧
    findPath chainGraph "a.md" "zzz" 10 = [] :=
  ⟨(C7_trivial_and_missing_endpoints chainGraph "a.md" "a.md" 10).1 rfl,
   (C7_trivial_and_missing_endpoints chainGraph "a.md" "zzz" 10).2 (by decide) (Or.inr (by decide))⟩

/-! Claim C4. -/

theorem evaluateStringFuel_badAnd_step (n : Nat) (ctx : NoteContext) :
    evaluateStringFuel (n + 1) badAndExpr.data ctx =
      (match evaluateStringFuel n badAndExpr.data ctx with
       | none => none
       | some false => some false
       | some true => some true) := rfl

/-- C4 (code bug): the claim says an expression whose every `&&` lies
inside a quoted string literal is not split and is evaluated as a single
function call.  The quote-aware splitter indeed does not split
`contains(title, "a && b")` (first conjunct), but `evaluateString` guards
the split with a naive substring test, so it re-evaluates the single
unchanged part forever: for every fuel bound the evaluation fails to
complete (second conjunct), modelling the JS infinite recursion / stack
overflow. -/
theorem C4_naive_guard_diverges :
    splitOnOperator badAndExpr "&&" = [badAndExpr] ∧
    ∀ fuel ctx, evaluateString fuel badAndExpr ctx = none := by
  refine ⟨by decide, ?_⟩
  intro fuel ctx
  induction fuel with
  | zero => rfl
  | succ n ih =>
    show evaluateStringFuel (n + 1) badAndExpr.data ctx = none
    rw [evaluateStringFuel_badAnd_step,
      show evaluateStringFuel n badAndExpr.data ctx = none from ih]

/-! Claim C6. -/

theorem evalAll_eq_true_iff (fuel : Nat) (ctx : NoteContext) (L : List FilterExpression) :
    evalAll fuel L ctx = some true ↔ ∀ e ∈ L, evaluate fuel e ctx = some true := by
  induction L with
  | nil => simp [evalAll]
  | cons e rest ih =>
    simp only [evalAll]
    cases h : evaluate fuel e ctx with
    | none =>
      constructor
      · intro hc
        exact absurd hc (by simp)
      · intro hall
        have := hall e (by simp)
        rw [h] at this
        exact absurd this (by simp)
    | some b =>
      cases b with
      | false =>
        constructor
        · intro hc
          exact absurd hc (by simp)
        · intro hall
          have := hall e (by simp)
          rw [h] at this
          exact absurd this (by simp)
      | true =>
        rw [ih]
        constructor
        · intro hall e' he'
          rcases List.mem_cons.mp he' with rfl | hmem
          · exact h
          · exact hall e' hmem
        · intro hall e' he'
          exact hall e' (List.mem_cons_of_mem _ he')

theorem evalAny_isSome (fuel : Nat) (ctx : NoteContext) (L : List FilterExpression)
    (h : ∀ e ∈ L, (evaluate fuel e ctx).isSome) : (evalAny fuel L ctx).isSome := by
  induction L with
  | nil => simp [evalAny]
  | cons e rest ih =>
    simp only [evalAny]
    cases he : evaluate fuel e ctx with
    | none =>
      have := h e (by simp)
      rw [he] at this
      exact absurd this (by simp)
    | some b =>
      cases b with
      | true => simp
      | false => exact ih (fun e' he' => h e' (List.mem_cons_of_mem _ he'))

theorem evalAny_eq_true_iff (fuel : Nat) (ctx : NoteContext) (L : List FilterExpression)
    (h : ∀ e ∈ L, (evaluate fuel e ctx).isSome) :
    evalAny fuel L ctx = some true ↔ ∃ e ∈ L, evaluate fuel e ctx = some true := by
  induction L with
  | nil => simp [evalAny]
  | cons e rest ih =>
    simp only [evalAny]
    cases he : evaluate fuel e ctx with
    | none =>
      have := h e (by simp)
      rw [he] at this
      exact absurd this (by simp)
    | some b =>
      cases b with
      | true =>
        constructor
        · intro _
          exact ⟨e, by simp, he⟩
        · intro _
          rfl
      | false =>
        rw [ih (fun e' he' => h e' (List.mem_cons_of_mem _ he'))]
        constructor
        · rintro ⟨e', hmem, hv⟩
          exact ⟨e', List.mem_cons_of_mem _ hmem, hv⟩
        · rintro ⟨e', hmem, hv⟩
          rcases List.mem_cons.mp hmem with rfl | hmem'
          · rw [he] at hv
            exact absurd hv (by simp)
          · exact ⟨e', hmem', hv⟩

/-- C6: for every list `L` of filter expressions and every context (under
the proviso that each sub-evaluation completes, which the JS evaluation
order presupposes): `And L` evaluates true iff every element does
(vacuously true on `[]`); `Or L` evaluates true iff some element does
(vacuously false on `[]`); and `Not L` evaluates true iff `Or L`
evaluates false, i.e. `Not [a, b]` reads `!(a || b)`. -/
theorem C6_boolean_algebra (fuel : Nat) (L : List FilterExpression) (ctx : NoteContext)
    (h : ∀ e ∈ L, (evaluate fuel e ctx).isSome) :
    (evaluate fuel (.and L) ctx = some true ↔ ∀ e ∈ L, evaluate fuel e ctx = some true) ∧
    (evaluate fuel (.or L) ctx = some true ↔ ∃ e ∈ L, evaluate fuel e ctx = some true) ∧
    (evaluate fuel (.not L) ctx = some true ↔ evaluate fuel (.or L) ctx = some false) := by
  refine ⟨?_, ?_, ?_⟩
  · show evalAll fuel L ctx = some true ↔ _
    exact evalAll_eq_true_iff fuel ctx L
  · show evalAny fuel L ctx = some true ↔ _
    exact evalAny_eq_true_iff fuel ctx L h
  · show (evalAny fuel L ctx).map (fun b => !b) = some true ↔ evalAny fuel L ctx = some false
    have hs := evalAny_isSome fuel ctx L h
    cases ha : evalAny fuel L ctx with
    | none =>
      rw [ha] at hs
      exact absurd hs (by simp)
    | some b => cases b <;> simp

/-- C6 witness: the equivalences at a concrete expression list and
context. -/
theorem C6_witness :
    (evaluate 1 (.and [.str "true", .str "false"]) sampleCtx = some true ↔
      ∀ e ∈ [FilterExpression.str "true", FilterExpression.str "false"],
        evaluate 1 e sampleCtx = some true) ∧
    (evaluate 1 (.or [.str "true", .str "false"]) sampleCtx = some true ↔
      ∃ e ∈ [FilterExpression.str "true", FilterExpression.str "false"],
        evaluate 1 e sampleCtx = some true) ∧
    (evaluate 1 (.not [.str "true", .str "false"]) sampleCtx = some true ↔
      evaluate 1 (.or [.str "true", .str "false"]) sampleCtx = some false) :=
  C6_boolean_algebra 1 [.str "true", .str "false"] sampleCtx (by decide)

/-! Claim C8. -/

/-- C8: on a document tagged `conversation` whose body is `**User**: hi`,
a `---` separator, then `**Claude**: hello`, `detectConversation` reports
a conversation with source `Claude` (inferred from the detected speakers,
since neither metadata nor tags set it) and message count 2; and in
general, role markers occurring at least twice with the literal speaker
`User` present and at least two distinct speakers set the
is-conversation flag for any document. -/
theorem C8_conversation_detection :
    (detectConversation convContent convFm).isConversation = true ∧
    (detectConversation convContent convFm).source = some "Claude" ∧
    (detectConversation convContent convFm).messageCount = 2 ∧
    (∀ content fm, 2 ≤ (roleSpeakers content).length →
      "User" ∈ roleSpeakers content →
      2 ≤ (dedupList (roleSpeakers content)).length →
      (detectConversation content fm).isConversation = true) := by
  refine ⟨by decide, by decide, by decide, ?_⟩
  intro content fm h1 h2 h3
  unfold detectConversation
  dsimp only
  rw [if_pos]
  refine ⟨h1, ?_, h3⟩
  exact List.elem_eq_true_of_mem (mem_dedupList.mpr h2)

/-- C8 witness: the general role-marker rule applied to the concrete
scenario document. -/
theorem C8_witness : (detectConversation convContent convFm).isConversation = true :=
  C8_conversation_detection.2.2.2 convContent convFm (by decide) (by decide) (by decide)

/-! Claim C10. -/

/-- C10: when the views list is non-empty and there is no view at the
requested index, `query` behaves exactly as if view index 0 had been
given (the fallback `views[viewIndex] || views[0]` selects the first
view, whose filters, sort order, limit and columns are then applied and
which is returned); in particular the call fails no more than the
view-0 call does. -/
theorem C10_view_index_fallback (fuel : Nat) (base : BaseYAML) (viewIndex : Nat)
    (files : List VFile) (hlen : 0 < base.views.length)
    (hidx : base.views.get? viewIndex = none) :
    query fuel base viewIndex files = query fuel base 0 files ∧
    ((query fuel base 0 files).isSome → (query fuel base viewIndex files).isSome) := by
  have hv : ∃ v, base.views.get? 0 = some v := by
    cases h : base.views.get? 0 with
    | none =>
      rw [List.get?_eq_none] at h
      omega
    | some v => exact ⟨v, rfl⟩
  obtain ⟨v, hv⟩ := hv
  have heq : query fuel base viewIndex files = query fuel base 0 files := by
    unfold query
    rw [hidx, hv]
  exact ⟨heq, fun h => heq ▸ h⟩

/-- C10 witness: a one-view base queried at the out-of-range index 7
returns exactly the view-0 result and succeeds. -/
theorem C10_witness :
    query 5 sampleBase 7 sampleVFiles = query 5 sampleBase 0 sampleVFiles ∧
    ((query 5 sampleBase 0 sampleVFiles).isSome → (query 5 sampleBase 7 sampleVFiles).isSome) :=
  C10_view_index_fallback 5 sampleBase 7 sampleVFiles (by decide) rfl

/-! Claim C9. -/

/-- C9 counterexample: `concat` splits its argument text on every comma
before inspecting quotes, so `concat("a,b")` does not join the quoted
argument as a literal: the code yields `""` (both fragments fail the
quote test and fall back to empty property lookups), while the
quote-aware reading of the single argument (computed here with the
evaluator's own argument parser) is `"a,b"`. -/
theorem C9_counterexample :
    evaluateFormula "concat(\"a,b\")" sampleCtx = Value.str "" ∧
    String.join ((parseArgs "\"a,b\"").map stripQuotes) = "a,b" ∧
    evaluateFormula "concat(\"a,b\")" sampleCtx ≠ Value.str "a,b" := by
  refine ⟨by decide, by decide, by decide⟩

theorem callInner_of_decomp (opener inner : List Char) (f : String)
    (hf : f.data = opener ++ inner ++ [')']) (hne : inner ≠ [])
    (hnl : ¬ hasLineTerm inner) : callInner opener f.data = some inner := by
  unfold callInner
  rw [hf]
  have hpre : opener.isPrefixOf (opener ++ inner ++ [')']) = true := by
    rw [List.isPrefixOf_iff_prefix]
    exact ⟨inner ++ [')'], by simp⟩
  rw [if_pos hpre, List.append_assoc, List.drop_left]
  simp only [List.getLast?_concat, List.dropLast_concat]
  rw [if_pos ⟨hne, hnl⟩]

theorem mem_of_decomp (opener inner : List Char) (f : String) (c : Char)
    (hf : f.data = opener ++ inner ++ [')']) (hc : c ∈ opener) : c ∈ f.data := by
  rw [hf]
  exact List.mem_append_left _ (List.mem_append_left _ hc)

/-- C9 (amended): a formula containing no parenthesis, plus or minus sign
is a direct property reference and evaluates to that property's value;
`concat(args...)` evaluates to the string join of the comma-split
fragments of its argument text, treating a double-quoted fragment as a
literal and any other fragment as a property reference stringified with
nullish fallback `""` (the split is naive, so a quoted argument
containing a comma is split apart — forced by the counterexample);
`length(arg)` evaluates to the array or string length of the referenced
value (0 otherwise); and any other formula text containing one of
`(`/`+`/`-` is returned verbatim, never raising an error. -/
theorem C9_formula_forms (f : String) (ctx : NoteContext) :
    (¬ f.data.contains '(' ∧ ¬ f.data.contains '+' ∧ ¬ f.data.contains '-' →
      evaluateFormula f ctx = getPropertyValue ctx (⟨trimChars f.data⟩ : String)) ∧
    (∀ inner : List Char, f.data = "concat(".data ++ inner ++ [')'] → inner ≠ [] →
      ¬ hasLineTerm inner →
      evaluateFormula f ctx = .str (String.join ((splitOnChar ',' inner).map (fun a =>
        let t := trimChars a
        if t.head? = some '"' && t.getLast? = some '"' then (⟨(t.drop 1).dropLast⟩ : String)
        else nullishToString (getPropertyValue ctx (⟨t⟩ : String)))))) ∧
    (∀ inner : List Char, f.data = "length(".data ++ inner ++ [')'] → inner ≠ [] →
      ¬ hasLineTerm inner →
      evaluateFormula f ctx = (match getPropertyValue ctx (⟨trimChars inner⟩ : String) with
        | .list l => .num l.length
        | .str s => .num s.length
        | _ => .num 0)) ∧
    ((f.data.contains '(' ∨ f.data.contains '+' ∨ f.data.contains '-') →
      callInner "concat(".data f.data = none → callInner "length(".data f.data = none →
      evaluateFormula f ctx = .str f) := by
  refine ⟨?_, ?_, ?_, ?_⟩
  · intro h
    unfold evaluateFormula
    rw [if_pos h]
  · intro inner hf hne hnl
    have hcall := callInner_of_decomp _ _ _ hf hne hnl
    have hc : '(' ∈ f.data := mem_of_decomp _ _ _ '(' hf (by decide)
    unfold evaluateFormula
    rw [if_neg (by simp [hc]), hcall]
    rfl
  · intro inner hf hne hnl
    have hcall := callInner_of_decomp _ _ _ hf hne hnl
    have hc : '(' ∈ f.data := mem_of_decomp _ _ _ '(' hf (by decide)
    have hnc : callInner "concat(".data f.data = none := by
      unfold callInner
      rw [hf]
      have hp : ("concat(".data.isPrefixOf ("length(".data ++ inner ++ [')'])) = false := by
        rw [show "length(".data ++ inner ++ [')'] = 'l' :: ("ength(".data ++ inner ++ [')']) from rfl]
        rfl
      rw [if_neg (by simp [hp])]
    unfold evaluateFormula
    rw [if_neg (by simp [hc]), hnc, hcall]
  · intro hor hnc hnl
    unfold evaluateFormula
    have hcond : ¬ (¬ f.data.contains '(' ∧ ¬ f.data.contains '+' ∧ ¬ f.data.contains '-') := by
      rcases hor with h | h | h
      · have := List.mem_of_elem_eq_true h
        simp [this]
      · have := List.mem_of_elem_eq_true h
        simp [this]
      · have := List.mem_of_elem_eq_true h
        simp [this]
    rw [if_neg hcond, hnc, hnl]

/-- C9 witness: the direct-reference and comma-free `concat` forms on the
sample context. -/
theorem C9_witness :
    evaluateFormula "title" sampleCtx = Value.str "X" ∧
    evaluateFormula "concat(\"a\", title)" sampleCtx = Value.str "aX" ∧
    evaluateFormula "length(items)" sampleCtx = Value.num 2 := by
  refine ⟨?_, ?_, ?_⟩
  · rw [(C9_formula_forms "title" sampleCtx).1 (by decide)]
    decide
  · rw [(C9_formula_forms "concat(\"a\", title)" sampleCtx).2.1 "\"a\", title".data
      (by decide) (by decide) (by decide)]
    decide
  · rw [(C9_formula_forms "length(items)" sampleCtx).2.2.1 "items".data
      (by decide) (by decide) (by decide)]
    decide

/-! Association-list lemmas. -/

theorem lookupA_setAssoc_self {α : Type} (l : List (String × α)) (k : String) (v : α) :
    lookupA (setAssoc l k v) k = some v := by
  induction l with
  | nil => simp [setAssoc, lookupA]
  | cons e rest ih =>
    by_cases h : e.1 = k
    · simp [setAssoc, h, lookupA]
    · simp only [setAssoc]
      rw [if_neg (by exact h)]
      simp [lookupA, h, ih]

theorem lookupA_setAssoc_ne {α : Type} (l : List (String × α)) (k' k : String) (v : α)
    (h : k' ≠ k) : lookupA (setAssoc l k' v) k = lookupA l k := by
  induction l with
  | nil => simp [setAssoc, lookupA, h]
  | cons e rest ih =>
    by_cases he : e.1 = k'
    · simp only [setAssoc]
      rw [if_pos he]
      simp [lookupA, h, he]
    · simp only [setAssoc]
      rw [if_neg he]
      simp [lookupA, ih]

theorem lookupA_mem {α : Type} {l : List (String × α)} {k : String} {v : α}
    (h : lookupA l k = some v) : (k, v) ∈ l := by
  induction l with
  | nil => simp [lookupA] at h
  | cons e rest ih =>
    by_cases he : e.1 = k
    · simp only [lookupA, if_pos he] at h
      cases h
      rw [← he]
      exact List.mem_cons_self e rest
    · simp only [lookupA, if_neg he] at h
      exact List.mem_cons_of_mem _ (ih h)

theorem mem_keys_setAssoc {α : Type} {l : List (String × α)} {k x : String} {v : α} :
    x ∈ (setAssoc l k v).map Prod.fst ↔ x ∈ l.map Prod.fst ∨ x = k := by
  induction l with
  | nil => simp [setAssoc]
  | cons e rest ih =>
    by_cases he : e.1 = k
    · simp only [setAssoc, if_pos he, List.map_cons, List.mem_cons]
      rw [he]
      tauto
    · simp only [setAssoc, if_neg he, List.map_cons, List.mem_cons, ih]
      tauto

theorem nodupKeys_setAssoc {α : Type} {l : List (String × α)} {k : String} {v : α}
    (h : (l.map Prod.fst).Nodup) : ((setAssoc l k v).map Prod.fst).Nodup := by
  induction l with
  | nil => simp [setAssoc]
  | cons e rest ih =>
    rw [List.map_cons, List.nodup_cons] at h
    by_cases he : e.1 = k
    · simp only [setAssoc, if_pos he, List.map_cons, List.nodup_cons]
      rw [← he]
      exact h
    · simp only [setAssoc, if_neg he, List.map_cons, List.nodup_cons]
      refine ⟨fun hc => ?_, ih h.2⟩
      rcases mem_keys_setAssoc.mp hc with hm | rfl
      · exact h.1 hm
      · exact he rfl

theorem mem_setAssoc_elim {α : Type} {l : List (String × α)} {k : String} {v : α}
    {e : String × α} (h : e ∈ setAssoc l k v) : e ∈ l ∨ e = (k, v) := by
  induction l with
  | nil =>
    simp [setAssoc] at h
    exact Or.inr h
  | cons e' rest ih =>
    by_cases he : e'.1 = k
    · simp only [setAssoc, if_pos he, List.mem_cons] at h
      rcases h with rfl | h
      · exact Or.inr rfl
      · exact Or.inl (List.mem_cons_of_mem _ h)
    · simp only [setAssoc, if_neg he, List.mem_cons] at h
      rcases h with rfl | h
      · exact Or.inl (List.mem_cons_self _ _)
      · rcases ih h with h' | h'
        · exact Or.inl (List.mem_cons_of_mem _ h')
        · exact Or.inr h'

theorem mem_iff_lookupA_of_nodup {α : Type} {l : List (String × α)} {k : String} {v : α}
    (h : (l.map Prod.fst).Nodup) : (k, v) ∈ l ↔ lookupA l k = some v := by
  constructor
  · intro hm
    induction l with
    | nil => simp at hm
    | cons e rest ih =>
      rw [List.map_cons, List.nodup_cons] at h
      rcases List.mem_cons.mp hm with rfl | hm'
      · simp [lookupA]
      · have hk : e.1 ≠ k := by
          intro hc
          exact h.1 (hc ▸ List.mem_map_of_mem Prod.fst hm')
        simp only [lookupA, if_neg hk]
        exact ih h.2 hm'
  · exact lookupA_mem

/-! Phase-2 fold lemmas. -/

theorem lookupA_pushIncoming (nodes : List (String × GraphNode)) (t src p : String) :
    lookupA (pushIncoming nodes t src) p =
      (lookupA nodes p).map
        (fun n => if p = t then { n with incoming := n.incoming ++ [src] } else n) := by
  induction nodes with
  | nil => simp [pushIncoming, lookupA]
  | cons e rest ih =>
    by_cases he : e.1 = t
    · simp only [pushIncoming, List.map_cons, if_pos he]
      by_cases hp : e.1 = p
      · simp only [lookupA, if_pos hp]
        rw [← hp, he]
        simp
      · simp only [lookupA, if_neg hp]
        simpa [pushIncoming] using ih
    · simp only [pushIncoming, List.map_cons, if_neg he]
      by_cases hp : e.1 = p
      · simp only [lookupA, if_pos hp]
        rw [← hp]
        simp [he]
      · simp only [lookupA, if_neg hp]
        simpa [pushIncoming] using ih

theorem lookupA_pushIncoming_fold (outs : List String) (src p : String)
    (acc : List (String × GraphNode)) :
    lookupA (outs.foldl (fun a t => pushIncoming a t src) acc) p =
      (lookupA acc p).map
        (fun n => { n with
          incoming := n.incoming ++ (outs.filter (fun t => t == p)).map (fun _ => src) }) := by
  induction outs generalizing acc with
  | nil =>
    simp only [List.foldl_nil, List.filter_nil, List.map_nil, List.append_nil]
    cases lookupA acc p <;> simp
  | cons t ts ih =>
    simp only [List.foldl_cons]
    rw [ih, lookupA_pushIncoming]
    by_cases hp : p = t
    · subst hp
      simp only [List.filter_cons, beq_self_eq_true, if_pos rfl]
      cases lookupA acc p <;> simp
    · have : (t == p) = false := by
        simp
        exact fun hc => hp hc.symm
      simp only [List.filter_cons, this]
      cases lookupA acc p <;> simp [hp]

theorem lookupA_buildPhase2_fold (srcs : List (String × GraphNode)) (p : String)
    (acc : List (String × GraphNode)) :
    lookupA (srcs.foldl
        (fun acc e => e.2.outgoing.foldl (fun a t => pushIncoming a t e.1) acc) acc) p =
      (lookupA acc p).map (fun n => { n with incoming := n.incoming ++ backlinksOf srcs p }) := by
  induction srcs generalizing acc with
  | nil =>
    simp only [List.foldl_nil, backlinksOf, List.map_nil, List.flatten_nil, List.append_nil]
    cases lookupA acc p <;> simp
  | cons e rest ih =>
    simp only [List.foldl_cons]
    rw [ih, lookupA_pushIncoming_fold]
    simp only [backlinksOf, List.map_cons, List.flatten_cons]
    cases lookupA acc p <;> simp [backlinksOf, List.append_assoc]

theorem lookupA_buildPhase2 (nodes1 : List (String × GraphNode)) (p : String) :
    lookupA (buildPhase2 nodes1) p =
      (lookupA nodes1 p).map (fun n => { n with incoming := n.incoming ++ backlinksOf nodes1 p }) := by
  unfold buildPhase2
  exact lookupA_buildPhase2_fold nodes1 p nodes1

theorem mem_backlinksOf {entries : List (String × GraphNode)} {a p : String} :
    a ∈ backlinksOf entries p ↔ ∃ n, (a, n) ∈ entries ∧ p ∈ n.outgoing := by
  unfold backlinksOf
  rw [List.mem_flatten]
  constructor
  · rintro ⟨l, hl, hal⟩
    rw [List.mem_map] at hl
    obtain ⟨e, he, rfl⟩ := hl
    rw [List.mem_map] at hal
    obtain ⟨t, ht, rfl⟩ := hal
    rw [List.mem_filter] at ht
    refine ⟨e.2, ?_, ?_⟩
    · exact he
    · rw [← eq_of_beq ht.2]
      exact ht.1
  · rintro ⟨n, hmem, hout⟩
    refine ⟨((n.outgoing.filter (fun t => t == p)).map (fun _ => a)), ?_, ?_⟩
    · exact List.mem_map_of_mem _ hmem
    · rw [List.mem_map]
      exact ⟨p, List.mem_filter.mpr ⟨hout, by simp⟩, rfl⟩

/-! Phase-1 fold invariants. -/

theorem phase1_fold_invariants (nameLookup : List (String × String)) (l : List FileEntry)
    (acc : List (String × GraphNode) × List String)
    (hk : (acc.1.map Prod.fst).Nodup)
    (hinv : ∀ e ∈ acc.1, e.2.incoming = [] ∧ e.2.path = e.1) :
    ((l.foldl (phase1Step nameLookup) acc).1.map Prod.fst).Nodup ∧
    (∀ e ∈ (l.foldl (phase1Step nameLookup) acc).1, e.2.incoming = [] ∧ e.2.path = e.1) := by
  induction l generalizing acc with
  | nil => exact ⟨hk, hinv⟩
  | cons f rest ih =>
    simp only [List.foldl_cons]
    apply ih
    · unfold phase1Step
      cases f.read with
      | none => exact hk
      | some r => exact nodupKeys_setAssoc hk
    · unfold phase1Step
      cases f.read with
      | none => exact hinv
      | some r =>
        intro e he
        rcases mem_setAssoc_elim he with h | rfl
        · exact hinv e h
        · exact ⟨rfl, rfl⟩

theorem buildPhase1_invariants (mdFiles : List FileEntry) (nameLookup : List (String × String)) :
    (((buildPhase1 mdFiles nameLookup).1.map Prod.fst).Nodup) ∧
    (∀ e ∈ (buildPhase1 mdFiles nameLookup).1, e.2.incoming = [] ∧ e.2.path = e.1) :=
  phase1_fold_invariants nameLookup mdFiles ([], []) (by simp) (by simp)

/-! Claim C1. -/

/-- C1: in every built graph, for all nodes `a` and `b` of its node set,
`b` appears in `a`'s outgoing list if and only if `a` appears in `b`'s
incoming list — the two-phase build makes incoming adjacency exactly the
inverse of resolved outgoing adjacency. -/
theorem C1_incoming_inverts_outgoing (files : List FileEntry) (a b : String)
    (na nb : GraphNode)
    (ha : lookupNode (buildGraph files) a = some na)
    (hb : lookupNode (buildGraph files) b = some nb) :
    b ∈ na.outgoing ↔ a ∈ nb.incoming := by
  unfold lookupNode buildGraph at ha hb
  rw [lookupA_buildPhase2] at ha hb
  set nodes1 := (buildPhase1 (mdFilter files) (buildNameLookup (mdFilter files))).1 with hnodes1
  obtain ⟨hnodup, hinv⟩ := buildPhase1_invariants (mdFilter files) (buildNameLookup (mdFilter files))
  rw [← hnodes1] at hnodup hinv
  cases ha1 : lookupA nodes1 a with
  | none => rw [ha1] at ha; exact absurd ha (by simp)
  | some na1 =>
    cases hb1 : lookupA nodes1 b with
    | none => rw [hb1] at hb; exact absurd hb (by simp)
    | some nb1 =>
      rw [ha1] at ha
      rw [hb1] at hb
      simp only [Option.map_some'] at ha hb
      cases ha
      cases hb
      have hains : nb1.incoming = [] := (hinv _ (lookupA_mem hb1)).1
      simp only [hains, List.nil_append]
      constructor
      · intro hout
        rw [mem_backlinksOf]
        exact ⟨na1, lookupA_mem ha1, hout⟩
      · intro hin
        rw [mem_backlinksOf] at hin
        obtain ⟨n, hmem, hout⟩ := hin
        have := (mem_iff_lookupA_of_nodup hnodup).mp hmem
        rw [ha1] at this
        cases this
        exact hout

/-- C1 witness: the inversion equivalence on the concrete chain graph,
instantiated in both directions. -/
theorem C1_witness :
    ∃ na nb : GraphNode,
      lookupNode chainGraph "a.md" = some na ∧
      lookupNode chainGraph "b.md" = some nb ∧
      ("b.md" ∈ na.outgoing ↔ "a.md" ∈ nb.incoming) ∧
      "b.md" ∈ na.outgoing ∧ "a.md" ∈ nb.incoming := by
  refine ⟨{ path := "a.md", title := "a.md", tags := [], outgoing := ["b.md"],
            incoming := [], embeds := [] },
          { path := "b.md", title := "b.md", tags := [], outgoing := ["c.md"],
            incoming := ["a.md"], embeds := [] }, by decide, by decide, ?_, by decide, by decide⟩
  exact C1_incoming_inverts_outgoing chainFiles "a.md" "b.md" _ _ (by decide) (by decide)

/-! Claim C5: resolution-fold lemmas. -/

theorem resolveFold_fst (nl : List (String × String)) (links : List String)
    (acc1 u : List String) :
    (links.foldl (resolveStep nl) (acc1, u)).1 = acc1 ++ resolvedLinks nl links := by
  induction links generalizing acc1 u with
  | nil => simp [resolvedLinks]
  | cons ℓ ls ih =>
    simp only [List.foldl_cons, resolveStep]
    cases h : resolveLink ℓ nl with
    | some t =>
      rw [ih]
      simp [resolvedLinks, h]
    | none =>
      rw [ih]
      simp [resolvedLinks, h]

theorem resolveFold_snd_mono (nl : List (String × String)) (links : List String)
    (acc1 u : List String) (x : String) (hx : x ∈ u) :
    x ∈ (links.foldl (resolveStep nl) (acc1, u)).2 := by
  induction links generalizing acc1 u with
  | nil => exact hx
  | cons ℓ ls ih =>
    simp only [List.foldl_cons, resolveStep]
    cases h : resolveLink ℓ nl with
    | some t => exact ih _ _ hx
    | none => exact ih _ _ (mem_addSet.mpr (Or.inl hx))

theorem resolveFold_snd_unres (nl : List (String × String)) (links : List String)
    (acc1 u : List String) (ℓ : String) (hmem : ℓ ∈ links)
    (hres : resolveLink ℓ nl = none) :
    ℓ ∈ (links.foldl (resolveStep nl) (acc1, u)).2 := by
  induction links generalizing acc1 u with
  | nil => simp at hmem
  | cons ℓ' ls ih =>
    simp only [List.foldl_cons, resolveStep]
    rcases List.mem_cons.mp hmem with rfl | hmem'
    · rw [hres]
      exact resolveFold_snd_mono nl ls _ _ ℓ (mem_addSet.mpr (Or.inr rfl))
    · cases h : resolveLink ℓ' nl with
      | some t => exact ih _ _ hmem'
      | none => exact ih _ _ hmem'

theorem phase1Fold_unres_mono (nl : List (String × String)) (l : List FileEntry)
    (acc : List (String × GraphNode) × List String) (x : String) (hx : x ∈ acc.2) :
    x ∈ (l.foldl (phase1Step nl) acc).2 := by
  induction l generalizing acc with
  | nil => exact hx
  | cons f rest ih =>
    simp only [List.foldl_cons]
    apply ih
    unfold phase1Step
    cases f.read with
    | none => exact hx
    | some r => exact resolveFold_snd_mono nl _ _ _ x hx

theorem phase1Fold_unres_of (nl : List (String × String)) (l : List FileEntry)
    (acc : List (String × GraphNode) × List String) (f : FileEntry) (hf : f ∈ l)
    (r : ReadResult) (hr : f.read = some r) (ℓ : String) (hℓ : ℓ ∈ extractLinks r.body)
    (hres : resolveLink ℓ nl = none) :
    ℓ ∈ (l.foldl (phase1Step nl) acc).2 := by
  induction l generalizing acc with
  | nil => simp at hf
  | cons f' rest ih =>
    simp only [List.foldl_cons]
    rcases List.mem_cons.mp hf with rfl | hf'
    · apply phase1Fold_unres_mono
      unfold phase1Step
      rw [hr]
      exact resolveFold_snd_unres nl _ _ _ ℓ hℓ hres
    · exact ih _ hf'

theorem phase1Fold_lookup_preserve (nl : List (String × String)) (rest : List FileEntry)
    (acc : List (String × GraphNode) × List String) (k : String)
    (h : ∀ f' ∈ rest, f'.path ≠ k) :
    lookupA ((rest.foldl (phase1Step nl) acc)).1 k = lookupA acc.1 k := by
  induction rest generalizing acc with
  | nil => rfl
  | cons f' tail ih =>
    simp only [List.foldl_cons]
    rw [ih _ (fun f'' hf'' => h f'' (List.mem_cons_of_mem _ hf''))]
    unfold phase1Step
    cases f'.read with
    | none => rfl
    | some r => exact lookupA_setAssoc_ne _ _ _ _ (h f' (List.mem_cons_self _ _))

theorem phase1Fold_lookup (nl : List (String × String)) (l : List FileEntry)
    (acc : List (String × GraphNode) × List String)
    (hnd : (l.map FileEntry.path).Nodup) (f : FileEntry) (hf : f ∈ l)
    (r : ReadResult) (hr : f.read = some r) :
    lookupA ((l.foldl (phase1Step nl) acc)).1 f.path =
      some { path := f.path, title := titleOf f r,
             tags := extractTags r.content r.frontmatter,
             outgoing := resolvedLinks nl (extractLinks r.body), incoming := [],
             embeds := extractEmbeds r.body } := by
  induction l generalizing acc with
  | nil => simp at hf
  | cons f' rest ih =>
    rw [List.map_cons, List.nodup_cons] at hnd
    simp only [List.foldl_cons]
    rcases List.mem_cons.mp hf with rfl | hf'
    · rw [phase1Fold_lookup_preserve nl rest _ f.path
        (fun f'' hf'' hc => hnd.1 (hc ▸ List.mem_map_of_mem FileEntry.path hf''))]
      unfold phase1Step
      rw [hr]
      simp only
      rw [resolveFold_fst nl _ [] _, List.nil_append]
      exact lookupA_setAssoc_self _ _ _
    · exact ih _ hnd.2 hf'

theorem nameLookup_fold_values (l : List FileEntry) (acc : List (String × String))
    (e : String × String)
    (he : e ∈ l.foldl
      (fun m f => setAssoc (setAssoc m (lowerStr f.name) f.path)
        (⟨lowerChars (stripMdSuffix f.path.data)⟩ : String) f.path) acc) :
    e ∈ acc ∨ e.2 ∈ l.map FileEntry.path := by
  induction l generalizing acc with
  | nil => exact Or.inl he
  | cons f rest ih =>
    simp only [List.foldl_cons] at he
    rcases ih _ he with h | h
    · rcases mem_setAssoc_elim h with h' | rfl
      · rcases mem_setAssoc_elim h' with h'' | rfl
        · exact Or.inl h''
        · exact Or.inr (by simp)
      · exact Or.inr (by simp)
    · exact Or.inr (List.mem_cons_of_mem _ h)

theorem resolveLink_mem_paths (mdFiles : List FileEntry) (ℓ t : String)
    (h : resolveLink ℓ (buildNameLookup mdFiles) = some t) :
    t ∈ mdFiles.map FileEntry.path := by
  have key : ∀ k, lookupA (buildNameLookup mdFiles) k = some t →
      t ∈ mdFiles.map FileEntry.path := by
    intro k hk
    have := lookupA_mem hk
    rcases nameLookup_fold_values mdFiles [] _ this with h' | h'
    · simp at h'
    · exact h'
  simp only [resolveLink] at h
  split at h
  · exact absurd h (by simp)
  · split at h
    · rename_i p hp
      cases h
      exact key _ hp
    · split at h
      · rename_i p hp
        cases h
        exact key _ hp
      · exact key _ h

/-- C5 counterexample: in the build over `dangleFiles` (note `a` links
to `b`, whose file is listed but unreadable), the raw link `b` resolves
and is recorded as a directed edge, yet its target path `b.md` is not in
the node set and `b` is not in the unresolved set — so a raw link can be
neither "an edge whose target is present in the node set" nor
unresolved, contradicting the claim's disjunction in exactly the case it
says also holds. -/
theorem C5_counterexample :
    extractLinks "[[b]]" = ["b"] ∧
    resolveLink "b" (buildNameLookup (mdFilter dangleFiles)) = some "b.md" ∧
    (∃ n, lookupNode dangleGraph "a.md" = some n ∧ "b.md" ∈ n.outgoing) ∧
    lookupNode dangleGraph "b.md" = none ∧
    dangleGraph.unresolvedLinks = [] := by
  refine ⟨by decide, by decide, ?_, by decide, by decide⟩
  exact ⟨{ path := "a.md", title := "a.md", tags := [], outgoing := ["b.md"],
           incoming := [], embeds := [] }, by decide, by decide⟩

/-- C5 (amended): for every build whose listed markdown paths are
distinct, and every markdown file that reads successfully, that file has
a node, and each raw outgoing link target extracted from it is either
resolved to a target recorded in the node's outgoing edge list — a
target path drawn from the listed markdown files, though not necessarily
from the node set (it dangles when its own file failed to read) — or is
contained in the unresolved-link set.  A document that cannot be read is
excluded from the node set and contributes no outgoing or incoming
edges. -/
theorem C5_resolved_or_unresolved (files : List FileEntry)
    (hnd : ((mdFilter files).map FileEntry.path).Nodup)
    (f : FileEntry) (hf : f ∈ mdFilter files) (r : ReadResult) (hr : f.read = some r) :
    ∃ n, lookupNode (buildGraph files) f.path = some n ∧
      ∀ ℓ ∈ extractLinks r.body,
        (∃ t, resolveLink ℓ (buildNameLookup (mdFilter files)) = some t ∧
          t ∈ n.outgoing ∧ t ∈ (mdFilter files).map FileEntry.path) ∨
        ℓ ∈ (buildGraph files).unresolvedLinks := by
  have hlook := phase1Fold_lookup (buildNameLookup (mdFilter files)) (mdFilter files)
    ([], []) hnd f hf r hr
  have hnode : lookupNode (buildGraph files) f.path =
      some { path := f.path, title := titleOf f r,
             tags := extractTags r.content r.frontmatter,
             outgoing := resolvedLinks (buildNameLookup (mdFilter files)) (extractLinks r.body),
             incoming := [] ++
               backlinksOf (buildPhase1 (mdFilter files) (buildNameLookup (mdFilter files))).1 f.path,
             embeds := extractEmbeds r.body } := by
    show lookupA (buildPhase2 (buildPhase1 (mdFilter files) (buildNameLookup (mdFilter files))).1)
      f.path = _
    rw [lookupA_buildPhase2]
    have hlook2 : lookupA (buildPhase1 (mdFilter files) (buildNameLookup (mdFilter files))).1
        f.path = some
                    { path := f.path, title := titleOf f r,
                      tags := extractTags r.content r.frontmatter,
                      outgoing := resolvedLinks (buildNameLookup (mdFilter files))
                        (extractLinks r.body),
                      incoming := [], embeds := extractEmbeds r.body } := hlook
    rw [hlook2]
    rfl
  refine ⟨_, hnode, ?_⟩
  · intro ℓ hℓ
    cases hres : resolveLink ℓ (buildNameLookup (mdFilter files)) with
    | some t =>
      left
      refine ⟨t, rfl, ?_, resolveLink_mem_paths _ _ _ hres⟩
      show t ∈ resolvedLinks (buildNameLookup (mdFilter files)) (extractLinks r.body)
      unfold resolvedLinks
      rw [List.mem_filterMap]
      exact ⟨ℓ, hℓ, hres⟩
    | none =>
      right
      exact phase1Fold_unres_of _ _ _ f hf r hr ℓ hℓ hres

/-- C5 witness: the amended disjunction on a concrete build with one
resolvable and one unresolvable link. -/
theorem C5_witness :
    ∃ n, lookupNode (buildGraph unresFiles) "a.md" = some n ∧
      ∀ ℓ ∈ extractLinks "[[b]] [[zzz]]",
        (∃ t, resolveLink ℓ (buildNameLookup (mdFilter unresFiles)) = some t ∧
          t ∈ n.outgoing ∧ t ∈ (mdFilter unresFiles).map FileEntry.path) ∨
        ℓ ∈ (buildGraph unresFiles).unresolvedLinks :=
  C5_resolved_or_unresolved unresFiles (by decide) (mdFile "a.md" "[[b]] [[zzz]]")
    (by decide) { frontmatter := [], body := "[[b]] [[zzz]]", content := "[[b]] [[zzz]]" } rfl

/-! Claim C3. -/

/-- C3 counterexample: with `maxNodes = 1`, expanding the start node of
the fan graph appends its whole two-element neighbor batch, so
`getNeighbors` returns 2 nodes — more than `maxNodes`. -/
theorem C3_counterexample :
    (getNeighbors fanGraph "a.md" 1 Direction.both 1).length = 2 ∧
    ¬ ((getNeighbors fanGraph "a.md" 1 Direction.both 1).length ≤ 1) := by
  exact ⟨by decide, by decide⟩

theorem le_foldr_max (l : List Nat) (x : Nat) (hx : x ∈ l) : x ≤ l.foldr max 0 := by
  induction l with
  | nil => simp at hx
  | cons y ys ih =>
    rcases List.mem_cons.mp hx with rfl | h
    · exact le_max_left _ _
    · exact le_trans (ih h) (le_max_right _ _)

theorem adj_le_maxAdj (g : VaultGraph) (p : String) (n : GraphNode)
    (h : lookupNode g p = some n) : n.outgoing.length + n.incoming.length ≤ maxAdj g := by
  have hm := lookupA_mem h
  unfold maxAdj
  exact le_foldr_max _ _
    (List.mem_map_of_mem (fun e => e.2.outgoing.length + e.2.incoming.length) hm)

theorem buildGraph_wf (files : List FileEntry) (p : String) (n : GraphNode)
    (h : lookupNode (buildGraph files) p = some n) : n.path = p := by
  unfold lookupNode buildGraph at h
  rw [lookupA_buildPhase2] at h
  obtain ⟨_, hinv⟩ := buildPhase1_invariants (mdFilter files) (buildNameLookup (mdFilter files))
  cases h1 : lookupA (buildPhase1 (mdFilter files) (buildNameLookup (mdFilter files))).1 p with
  | none =>
    rw [h1] at h
    exact absurd h (by simp)
  | some n1 =>
    rw [h1] at h
    simp only [Option.map_some'] at h
    cases h
    exact (hinv _ (lookupA_mem h1)).2

theorem ReachWithin_step' {g : VaultGraph} {dir : Direction} {s p q : String} {k : Nat}
    (h : ReachWithin g dir s p k) (node : GraphNode) (hn : lookupNode g p = some node)
    (hq : q ∈ (if dir = .both || dir = .outgoing then node.outgoing else []) ++
      (if dir = .both || dir = .incoming then node.incoming else [])) :
    ReachWithin g dir s q (k + 1) := by
  apply ReachWithin.step h
  unfold neighborsOf
  rw [hn]
  exact hq

theorem neighborScan_invariants (g : VaultGraph) (dir : Direction) (s : String)
    (depth d : Nat) (hWF : ∀ p n, lookupNode g p = some n → n.path = p)
    (hd : d + 1 ≤ depth) (ns : List String) :
    ∀ (adds : List (String × Nat)) (visited : List String) (result : List GraphNode),
    (∀ n ∈ ns, ReachWithin g dir s n (d + 1)) →
    (result.map GraphNode.path).Nodup →
    (∀ x ∈ result, x.path ∈ visited) →
    (∀ q ∈ adds, q.2 ≤ depth ∧ ReachWithin g dir s q.1 q.2) →
    (∀ x ∈ result, ∃ k, k ≤ depth ∧ ReachWithin g dir s x.path k) →
    (((neighborScan g d ns adds visited result).2.2.map GraphNode.path).Nodup ∧
     (∀ x ∈ (neighborScan g d ns adds visited result).2.2,
       x.path ∈ (neighborScan g d ns adds visited result).2.1) ∧
     (∀ q ∈ (neighborScan g d ns adds visited result).1,
       q.2 ≤ depth ∧ ReachWithin g dir s q.1 q.2) ∧
     (∀ x ∈ (neighborScan g d ns adds visited result).2.2,
       ∃ k, k ≤ depth ∧ ReachWithin g dir s x.path k) ∧
     (neighborScan g d ns adds visited result).2.2.length ≤ result.length + ns.length) := by
  induction ns with
  | nil =>
    intro adds visited result _ hnd hvis hadds hreach
    exact ⟨hnd, hvis, hadds, hreach, by simp [neighborScan]⟩
  | cons n rest ih =>
    intro adds visited result hns hnd hvis hadds hreach
    simp only [neighborScan]
    by_cases hv : visited.contains n
    · rw [if_pos hv]
      have h := ih adds visited result (fun n' h' => hns n' (List.mem_cons_of_mem _ h'))
        hnd hvis hadds hreach
      refine ⟨h.1, h.2.1, h.2.2.1, h.2.2.2.1, ?_⟩
      calc (neighborScan g d rest adds visited result).2.2.length
          ≤ result.length + rest.length := h.2.2.2.2
        _ ≤ result.length + (n :: rest).length := by
            simp only [List.length_cons]
            omega
    · rw [if_neg hv]
      cases hn : lookupNode g n with
      | some nn =>
        have hpath : nn.path = n := hWF n nn hn
        have h := ih (adds ++ [(n, d + 1)]) (visited ++ [n]) (result ++ [nn])
          (fun n' h' => hns n' (List.mem_cons_of_mem _ h'))
          (by
            rw [List.map_append, List.map_singleton]
            apply List.Nodup.append hnd (by simp)
            intro x hx hx'
            simp only [List.mem_singleton] at hx'
            subst hx'
            rw [List.mem_map] at hx
            obtain ⟨y, hy, hyp⟩ := hx
            rw [hpath] at hyp
            exact hv (List.elem_eq_true_of_mem (hyp ▸ hvis y hy)))
          (by
            intro x hx
            rcases List.mem_append.mp hx with h' | h'
            · exact List.mem_append_left _ (hvis x h')
            · simp only [List.mem_singleton] at h'
              subst h'
              rw [hpath]
              simp)
          (by
            intro q hq
            rcases List.mem_append.mp hq with h' | h'
            · exact hadds q h'
            · simp only [List.mem_singleton] at h'
              subst h'
              exact ⟨hd, hns n (List.mem_cons_self _ _)⟩)
          (by
            intro x hx
            rcases List.mem_append.mp hx with h' | h'
            · exact hreach x h'
            · simp only [List.mem_singleton] at h'
              subst h'
              rw [hpath]
              exact ⟨d + 1, hd, hns n (List.mem_cons_self _ _)⟩)
        refine ⟨h.1, h.2.1, h.2.2.1, h.2.2.2.1, ?_⟩
        calc (neighborScan g d rest _ _ _).2.2.length
            ≤ (result ++ [nn]).length + rest.length := h.2.2.2.2
          _ ≤ result.length + (n :: rest).length := by
              simp only [List.length_append, List.length_cons, List.length_singleton,
                List.length_nil]
              omega
      | none =>
        have h := ih adds (visited ++ [n]) result
          (fun n' h' => hns n' (List.mem_cons_of_mem _ h'))
          hnd
          (fun x hx => List.mem_append_left _ (hvis x hx))
          hadds hreach
        refine ⟨h.1, h.2.1, h.2.2.1, h.2.2.2.1, ?_⟩
        calc (neighborScan g d rest _ _ _).2.2.length
            ≤ result.length + rest.length := h.2.2.2.2
          _ ≤ result.length + (n :: rest).length := by
              simp only [List.length_cons]
              omega

theorem neighborsLoop_invariants (g : VaultGraph) (depth maxNodes : Nat) (dir : Direction)
    (s : String) (hWF : ∀ p n, lookupNode g p = some n → n.path = p) :
    ∀ (fuel : Nat) (queue : List (String × Nat)) (visited : List String)
      (result : List GraphNode),
    (∀ q ∈ queue, q.2 ≤ depth ∧ ReachWithin g dir s q.1 q.2) →
    (result.map GraphNode.path).Nodup →
    (∀ x ∈ result, x.path ∈ visited) →
    (∀ x ∈ result, ∃ k, k ≤ depth ∧ ReachWithin g dir s x.path k) →
    result.length ≤ maxNodes - 1 + maxAdj g →
    (((neighborsLoop g depth maxNodes dir fuel queue visited result).map GraphNode.path).Nodup ∧
     (∀ x ∈ neighborsLoop g depth maxNodes dir fuel queue visited result,
       ∃ k, k ≤ depth ∧ ReachWithin g dir s x.path k) ∧
     (neighborsLoop g depth maxNodes dir fuel queue visited result).length ≤
       maxNodes - 1 + maxAdj g) := by
  intro fuel
  induction fuel with
  | zero =>
    intro queue visited result _ hnd _ hreach hlen
    exact ⟨hnd, hreach, hlen⟩
  | succ n ih =>
    intro queue visited result hq hnd hvis hreach hlen
    cases queue with
    | nil => exact ⟨hnd, hreach, hlen⟩
    | cons item rest =>
      obtain ⟨p, d⟩ := item
      simp only [neighborsLoop]
      by_cases hcap : maxNodes ≤ result.length
      · rw [if_pos hcap]
        exact ⟨hnd, hreach, hlen⟩
      · rw [if_neg hcap]
        by_cases hdep : depth ≤ d
        · rw [if_pos hdep]
          exact ih rest visited result (fun q h' => hq q (List.mem_cons_of_mem _ h'))
            hnd hvis hreach hlen
        · rw [if_neg hdep]
          cases hp : lookupNode g p with
          | none =>
            exact ih rest visited result (fun q h' => hq q (List.mem_cons_of_mem _ h'))
              hnd hvis hreach hlen
          | some node =>
            have hqp := hq (p, d) (List.mem_cons_self _ _)
            have hd1 : d + 1 ≤ depth := by omega
            have hnbrs : ∀ x ∈ (if dir = .both || dir = .outgoing then node.outgoing else []) ++
                (if dir = .both || dir = .incoming then node.incoming else []),
                ReachWithin g dir s x (d + 1) :=
              fun x hx => ReachWithin_step' hqp.2 node hp hx
            have hsc := neighborScan_invariants g dir s depth d hWF hd1 _ [] visited result
              hnbrs hnd hvis (by simp) hreach
            apply ih
            · intro q hq'
              rcases List.mem_append.mp hq' with h' | h'
              · exact hq q (List.mem_cons_of_mem _ h')
              · exact hsc.2.2.1 q h'
            · exact hsc.1
            · exact hsc.2.1
            · exact hsc.2.2.2.1
            · have hnlen : ((if dir = .both || dir = .outgoing then node.outgoing else []) ++
                  (if dir = .both || dir = .incoming then node.incoming else [])).length ≤
                  maxAdj g := by
                have hadj := adj_le_maxAdj g p node hp
                cases dir with
                | both =>
                  show (node.outgoing ++ node.incoming).length ≤ maxAdj g
                  rw [List.length_append]
                  exact hadj
                | outgoing =>
                  show (node.outgoing ++ []).length ≤ maxAdj g
                  rw [List.append_nil]
                  omega
                | incoming =>
                  show ([] ++ node.incoming).length ≤ maxAdj g
                  rw [List.nil_append]
                  omega
              calc (neighborScan g d _ [] visited result).2.2.length
                  ≤ result.length + _ := hsc.2.2.2.2
                _ ≤ (maxNodes - 1) + maxAdj g := by omega

/-- C3 (amended): `getNeighbors` on a built graph never returns the same
node twice, and never includes a node whose hop distance from the start
within the traversal exceeds `depth`; but the node cap is checked only
before expanding a frontier node, whose whole neighbor batch is then
appended, so the result is bounded by `maxNodes - 1` plus the largest
per-node neighbor count rather than by `maxNodes` itself (forced by the
counterexample). -/
theorem C3_neighbor_bounds (files : List FileEntry) (s : String) (depth : Nat)
    (dir : Direction) (maxNodes : Nat) :
    (((getNeighbors (buildGraph files) s depth dir maxNodes).map GraphNode.path).Nodup ∧
     (∀ nn ∈ getNeighbors (buildGraph files) s depth dir maxNodes,
       ∃ k, k ≤ depth ∧ ReachWithin (buildGraph files) dir s nn.path k) ∧
     (getNeighbors (buildGraph files) s depth dir maxNodes).length ≤
       maxNodes - 1 + maxAdj (buildGraph files)) := by
  apply neighborsLoop_invariants (buildGraph files) depth maxNodes dir s
    (buildGraph_wf files)
  · intro q hq
    simp only [List.mem_singleton] at hq
    subst hq
    exact ⟨Nat.zero_le _, ReachWithin.refl 0⟩
  · simp
  · simp
  · simp
  · simp

/-- C3 witness: the reachability consequence instantiated on the fan
graph for a concrete returned node. -/
theorem C3_witness :
    ∃ k, k ≤ 1 ∧ ReachWithin (buildGraph fanFiles) Direction.both "a.md" "b.md" k :=
  (C3_neighbor_bounds fanFiles "a.md" 1 Direction.both 50).2.1
    { path := "b.md", title := "b.md", tags := [], outgoing := [],
      incoming := ["a.md"], embeds := [] } (by decide)

/-! Claim C2. -/

theorem pairwise_of_forall_mem {α : Type} {R : α → α → Prop} {l : List α}
    (h : ∀ x ∈ l, ∀ y ∈ l, R x y) : List.Pairwise R l := by
  induction l with
  | nil => exact List.Pairwise.nil
  | cons a rest ih =>
    refine List.Pairwise.cons ?_ ?_
    · intro b hb
      exact h a (List.mem_cons_self _ _) b (List.mem_cons_of_mem _ hb)
    · exact ih (fun x hx y hy =>
        h x (List.mem_cons_of_mem _ hx) y (List.mem_cons_of_mem _ hy))

theorem lengths_eq_of_all (paths : List (List String)) (shortest : Option Nat)
    (ha : ∀ r ∈ paths, shortest = some r.length) (p q : List String)
    (hp : p ∈ paths) (hq : q ∈ paths) : p.length = q.length := by
  have h1 := ha p hp
  have h2 := ha q hq
  rw [h1] at h2
  exact Option.some.inj h2

theorem pathScan_invariants (toPath : String) (trail : List String) (ns : List String) :
    ∀ (adds : List (String × List String)) (visited : List String)
      (paths : List (List String)) (shortest : Option Nat),
    (∀ r ∈ paths, shortest = some r.length) →
    (∀ L, shortest = some L → L ≤ trail.length + 1) →
    (∀ y ∈ adds, y.2.length = trail.length + 1) →
    ((∀ r ∈ (pathScan toPath trail ns adds visited paths shortest).2.2.1,
        (pathScan toPath trail ns adds visited paths shortest).2.2.2 = some r.length) ∧
     (∀ L, (pathScan toPath trail ns adds visited paths shortest).2.2.2 = some L →
        L ≤ trail.length + 1) ∧
     (∀ y ∈ (pathScan toPath trail ns adds visited paths shortest).1,
        y.2.length = trail.length + 1)) := by
  induction ns with
  | nil =>
    intro adds visited paths shortest ha hI2 hI3
    exact ⟨ha, hI2, hI3⟩
  | cons n rest ih =>
    intro adds visited paths shortest ha hI2 hI3
    simp only [pathScan]
    split
    · exact ih _ _ _ _ ha hI2 hI3
    · split
      · rename_i hEq
        split
        · rename_i hle
          apply ih
          · intro r hr
            rcases List.mem_append.mp hr with hr' | hr'
            · have hs := ha r hr'
              have hlen1 : r.length ≤ trail.length + 1 := hI2 _ hs
              have hlen2 : (trail ++ [n]).length ≤ r.length := by
                rw [hs] at hle
                simpa [leOptNat] using hle
              rw [List.length_append, List.length_singleton] at hlen2
              have : r.length = trail.length + 1 := le_antisymm hlen1 hlen2
              rw [this, List.length_append, List.length_singleton]
            · simp only [List.mem_singleton] at hr'
              subst hr'
              rfl
          · intro L hL
            rw [Option.some.injEq] at hL
            rw [← hL, List.length_append, List.length_singleton]
          · exact hI3
        · exact ih _ _ _ _ ha hI2 hI3
      · apply ih
        · exact ha
        · exact hI2
        · intro y hy
          rcases List.mem_append.mp hy with hy' | hy'
          · exact hI3 y hy'
          · simp only [List.mem_singleton] at hy'
            subst hy'
            simp

theorem findPathLoop_lengths (g : VaultGraph) (toPath : String) (maxDepth : Nat) :
    ∀ (fuel : Nat) (queue : List (String × List String)) (visited : List String)
      (paths : List (List String)) (shortest : Option Nat),
    (∀ r ∈ paths, shortest = some r.length) →
    List.Pairwise (fun x y : String × List String =>
      x.2.length ≤ y.2.length ∧ y.2.length ≤ x.2.length + 1) queue →
    (∀ L, shortest = some L → ∀ x ∈ queue, L ≤ x.2.length + 1) →
    ∀ p q, p ∈ findPathLoop g toPath maxDepth fuel queue visited paths shortest →
      q ∈ findPathLoop g toPath maxDepth fuel queue visited paths shortest →
      p.length = q.length := by
  intro fuel
  induction fuel with
  | zero =>
    intro queue visited paths shortest ha _ _ p q hp hq
    exact lengths_eq_of_all paths shortest ha p q hp hq
  | succ m ih =>
    intro queue visited paths shortest ha hpw hc p q hp hq
    cases queue with
    | nil => exact lengths_eq_of_all paths shortest ha p q hp hq
    | cons item rest =>
      obtain ⟨pp, trail⟩ := item
      simp only [findPathLoop] at hp hq
      by_cases hdep : maxDepth < trail.length
      · rw [if_pos hdep] at hp hq
        exact lengths_eq_of_all paths shortest ha p q hp hq
      · rw [if_neg hdep] at hp hq
        by_cases hgt : gtOptNat trail.length shortest = true
        · rw [if_pos hgt] at hp hq
          exact lengths_eq_of_all paths shortest ha p q hp hq
        · rw [if_neg hgt] at hp hq
          have hpwrest := (List.pairwise_cons.mp hpw).2
          have hheadrel := (List.pairwise_cons.mp hpw).1
          cases hlook : lookupNode g pp with
          | none =>
            rw [hlook] at hp hq
            refine ih rest visited paths shortest ha hpwrest ?_ p q hp hq
            intro L hL x hx
            exact hc L hL x (List.mem_cons_of_mem _ hx)
          | some node =>
            rw [hlook] at hp hq
            have hI2head : ∀ L, shortest = some L → L ≤ trail.length + 1 := by
              intro L hL
              exact hc L hL (pp, trail) (List.mem_cons_self _ _)
            have hsc := pathScan_invariants toPath trail (node.outgoing ++ node.incoming)
              [] visited paths shortest ha hI2head (by simp)
            refine ih _ _ _ _ hsc.1 ?_ ?_ p q hp hq
            · rw [List.pairwise_append]
              refine ⟨hpwrest, ?_, ?_⟩
              · apply pairwise_of_forall_mem
                intro x hx y hy
                rw [hsc.2.2 x hx, hsc.2.2 y hy]
                omega
              · intro x hx y hy
                have hxrel : trail.length ≤ x.2.length ∧ x.2.length ≤ trail.length + 1 :=
                  hheadrel x hx
                rw [hsc.2.2 y hy]
                omega
            · intro L hL x hx
              have hLle := hsc.2.1 L hL
              rcases List.mem_append.mp hx with hx' | hx'
              · have hxrel : trail.length ≤ x.2.length ∧ x.2.length ≤ trail.length + 1 :=
                  hheadrel x hx'
                omega
              · rw [hsc.2.2 x hx']
                omega

/-- C2: every two paths returned by one `findPath` call have the same
length — the search records a path only when it does not exceed the best
known length, and breadth-first order makes all recorded paths exactly
that length, so no returned path is longer than another and all equal
the length at which the target was first reached. -/
theorem C2_shortest_paths_equal_length (g : VaultGraph) (s t : String) (d : Nat)
    (p q : List String) (hp : p ∈ findPath g s t d) (hq : q ∈ findPath g s t d) :
    p.length = q.length := by
  unfold findPath at hp hq
  by_cases hst : s = t
  · rw [if_pos hst] at hp hq
    simp only [List.mem_singleton] at hp hq
    rw [hp, hq]
  · rw [if_neg hst] at hp hq
    cases hs : lookupNode g s with
    | none =>
      rw [hs] at hp hq
      cases lookupNode g t <;> simp at hp
    | some ns =>
      cases ht : lookupNode g t with
      | none =>
        rw [hs, ht] at hp hq
        simp at hp
      | some nt =>
        rw [hs, ht] at hp hq
        refine findPathLoop_lengths g t d (graphFuel g) [(s, [s])] [s] [] none
          (by simp) (List.pairwise_singleton _ _) (by simp) p q hp hq

/-- C2 witness: the unique shortest path on the chain graph, with the
equal-length conclusion instantiated on it. -/
theorem C2_witness :
    (["a.md", "b.md", "c.md"] : List String) ∈ findPath chainGraph "a.md" "c.md" 10 ∧
    (["a.md", "b.md", "c.md"] : List String).length =
      (["a.md", "b.md", "c.md"] : List String).length :=
  ⟨by decide, C2_shortest_paths_equal_length chainGraph "a.md" "c.md" 10 _ _
    (by decide) (by decide)⟩

end ObsidianMCP
